import Mathlib

/-!
# chessC: a shallow embedding of `src/chess.c`

The engine keeps three process-wide objects: the board `g_board` (64 bytes),
the move buffer `g_moves` (256 records) with its logical length
`g_move_count`, and the state of the C library's pseudo-random source.
They are gathered in the record `Engine` and every C function becomes a
function from `Engine` to `Engine` (paired with the returned value where the
C function returns one).

Conventions of the embedding.

* A byte of the board is a natural number (its value as an unsigned byte);
  `'.'` is `46`, `'A'..'Z'` is `65..90`, `'a'..'z'` is `97..122`.  The tests of
  the source on `char` values only compare against these ASCII ranges, so the
  signedness of `char` plays no role.
* `int8_t` values are integers; every conversion to `int8_t` that the source
  performs is kept as `to_int8`, every conversion to `uint8_t` as `to_uint8`.
* C division and remainder on `int` are `Int.tdiv` and `Int.tmod`.
* The flag `uint8_t is_white` is a `Bool` (`true` when it is non-zero).
* The two `while (1)` loops take a fuel argument and return `none` when the
  fuel runs out; the callers pass `64`, shown further down to be always enough.
* `rand()` of the C library is not part of the repository: it is a parameter
  `rand : Nat → Nat × Nat` sending the state of the source to the drawn
  number and the next state; `srand(42)` stores `42` as the state.
-/

namespace ChessC

/-! ## Data model (chess.h) -/

abbrev BOARD_SQUARES : Nat := 64

abbrev MOVE_BUFFER_SIZE : Nat := 256

/-- The record `ChessMove` of chess.h; the C fields `from` and `to` carry a
trailing underscore because both words are reserved in Lean. -/
structure ChessMove where
  from_ : Nat
  to_ : Nat
  captured : Nat
deriving DecidableEq, Repr

/-- The array `uint8_t g_board[BOARD_SQUARES]`. -/
abbrev Board := Fin BOARD_SQUARES → Nat

/-- The global state of chess.c together with the state of the C library's
pseudo-random source. -/
structure Engine where
  g_board : Board
  g_moves : Nat → ChessMove
  g_move_count : Nat
  rand_state : Nat

/-- Reading `g_board[i]`; the source only reads at indices below 64. -/
def rd (b : Board) (i : Nat) : Nat :=
  if h : i < BOARD_SQUARES then b ⟨i, h⟩ else 0

/-- The assignment `g_board[i] = v`. -/
def wr (b : Board) (i : Nat) (v : Nat) : Board :=
  fun j => if j.val = i then v else b j

/-- Conversion of an `int` to `int8_t`. -/
def to_int8 (x : Int) : Int := (x + 128) % 256 - 128

/-- Conversion of an `int` to `uint8_t`. -/
def to_uint8 (x : Int) : Nat := (x % 256).toNat

/-! ## Board state -/

/-- The string literal `start` of `set_start_position`. -/
def start : String :=
  "rnbqkbnrpppppppp................................PPPPPPPPRNBQKBNR"

/-- The bytes of `start`. -/
def start_bytes : List Nat := start.toList.map Char.toNat

/-- The C function `set_start_position`: a `memset` with `'.'`, then the loop
copying `start[i]` for `i = 0..63`. -/
def set_start_position (st : Engine) : Engine :=
  let cleared : Board := fun _ => 46
  { st with
    g_board := (List.range BOARD_SQUARES).foldl
      (fun b i => wr b i (start_bytes.getD i 0)) cleared }

def is_white_piece (p : Nat) : Bool := decide (65 ≤ p) && decide (p ≤ 90)

def is_black_piece (p : Nat) : Bool := decide (97 ≤ p) && decide (p ≤ 122)

def on_board (idx : Int) : Bool := decide (0 ≤ idx) && decide (idx < 64)

/-- The C function `chess_reset`; `srand(42)` sets the state of the
pseudo-random source. -/
def chess_reset (st : Engine) : Engine :=
  { set_start_position st with g_move_count := 0, rand_state := 42 }

/-- The C function `chess_get_board`. -/
def chess_get_board (st : Engine) : Board := st.g_board

/-! ## Move buffer -/

def push_move (st : Engine) (from_ to_ : Nat) : Engine :=
  if st.g_move_count ≥ MOVE_BUFFER_SIZE then st
  else
    { st with
      g_moves := fun i =>
        if i = st.g_move_count then
          { from_ := from_, to_ := to_, captured := rd st.g_board to_ }
        else st.g_moves i
      g_move_count := st.g_move_count + 1 }

/-- The C function `chess_get_moves`. -/
def chess_get_moves (st : Engine) : Nat → ChessMove := st.g_moves

/-! ## Pseudo-legal move generator -/

def generate_pawn_moves (st : Engine) (idx : Nat) (is_white : Bool) : Engine :=
  let direction : Int := if is_white then -8 else 8
  let one_step : Int := to_int8 (to_int8 idx + direction)
  let st1 :=
    if on_board one_step && rd st.g_board one_step.toNat == 46 then
      push_move st idx (to_uint8 one_step)
    else st
  let attack_left : Int := to_int8 (one_step - 1)
  let attack_right : Int := to_int8 (one_step + 1)
  let st2 :=
    if on_board attack_left && Int.tmod attack_left 8 != 7 then
      let target := rd st1.g_board attack_left.toNat
      if target != 46 && ((is_white && is_black_piece target)
          || (!is_white && is_white_piece target)) then
        push_move st1 idx (to_uint8 attack_left)
      else st1
    else st1
  if on_board attack_right && Int.tmod attack_right 8 != 0 then
    let target := rd st2.g_board attack_right.toNat
    if target != 46 && ((is_white && is_black_piece target)
        || (!is_white && is_white_piece target)) then
      push_move st2 idx (to_uint8 attack_right)
    else st2
  else st2

/-- The table `jumps` of `generate_knight_moves`. -/
def knight_jumps : List Int := [17, 15, 10, 6, -17, -15, -10, -6]

/-- One iteration of the `for` loop of `generate_knight_moves`. -/
def knight_step (idx : Nat) (is_white : Bool) (st : Engine) (jump : Int) : Engine :=
  let target : Int := to_int8 (to_int8 idx + jump)
  if !on_board target then st
  else
    let file_diff := (Int.tmod target 8 - Int.tmod idx 8).natAbs
    let rank_diff := (Int.tdiv target 8 - Int.tdiv idx 8).natAbs
    if !((file_diff == 1 && rank_diff == 2) || (file_diff == 2 && rank_diff == 1)) then st
    else
      let occupant := rd st.g_board target.toNat
      if occupant == 46 || (is_white && is_black_piece occupant)
          || (!is_white && is_white_piece occupant) then
        push_move st idx (to_uint8 target)
      else st

def generate_knight_moves (st : Engine) (idx : Nat) (is_white : Bool) : Engine :=
  knight_jumps.foldl (knight_step idx is_white) st

/-- The table `deltas` of `generate_king_moves`. -/
def king_deltas : List Int := [-9, -8, -7, -1, 1, 7, 8, 9]

/-- One iteration of the `for` loop of `generate_king_moves`. -/
def king_step (idx : Nat) (is_white : Bool) (st : Engine) (delta : Int) : Engine :=
  let target : Int := to_int8 (to_int8 idx + delta)
  if !on_board target then st
  else
    let file_diff := (Int.tmod target 8 - Int.tmod idx 8).natAbs
    let rank_diff := (Int.tdiv target 8 - Int.tdiv idx 8).natAbs
    if decide (file_diff > 1) || decide (rank_diff > 1) then st
    else
      let occupant := rd st.g_board target.toNat
      if occupant == 46 || (is_white && is_black_piece occupant)
          || (!is_white && is_white_piece occupant) then
        push_move st idx (to_uint8 target)
      else st

def generate_king_moves (st : Engine) (idx : Nat) (is_white : Bool) : Engine :=
  king_deltas.foldl (king_step idx is_white) st

/-- The table `directions` of `generate_rook_moves`. -/
def rook_directions : List Int := [-8, 8, -1, 1]

/-- The `while (1)` loop of `generate_rook_moves` for one direction, started
with the given value of `current`; `none` when the fuel runs out. -/
def rook_ray (idx : Nat) (is_white : Bool) (dir : Int) : Nat → Engine → Nat → Option Engine
  | 0, _, _ => none
  | fuel + 1, st, current =>
    let target : Int := to_int8 (to_int8 current + dir)
    if !on_board target then some st
    else if (dir == -1 || dir == 1) && Int.tdiv target 8 != Int.tdiv current 8 then some st
    else
      let occupant := rd st.g_board target.toNat
      if occupant == 46 then
        rook_ray idx is_white dir fuel (push_move st idx (to_uint8 target)) (to_uint8 target)
      else if (is_white && is_black_piece occupant)
          || (!is_white && is_white_piece occupant) then
        some (push_move st idx (to_uint8 target))
      else some st

def generate_rook_moves (st : Engine) (idx : Nat) (is_white : Bool) : Option Engine :=
  rook_directions.foldlM (fun s dir => rook_ray idx is_white dir 64 s idx) st

/-- The table `directions` of `generate_bishop_moves`. -/
def bishop_directions : List Int := [-9, -7, 7, 9]

/-- The `while (1)` loop of `generate_bishop_moves` for one direction, started
with the given value of `current`; `none` when the fuel runs out. -/
def bishop_ray (idx : Nat) (is_white : Bool) (dir : Int) : Nat → Engine → Nat → Option Engine
  | 0, _, _ => none
  | fuel + 1, st, current =>
    let target : Int := to_int8 (to_int8 current + dir)
    if !on_board target then some st
    else if (Int.tmod target 8 - Int.tmod current 8).natAbs != 1 then some st
    else
      let occupant := rd st.g_board target.toNat
      if occupant == 46 then
        bishop_ray idx is_white dir fuel (push_move st idx (to_uint8 target)) (to_uint8 target)
      else if (is_white && is_black_piece occupant)
          || (!is_white && is_white_piece occupant) then
        some (push_move st idx (to_uint8 target))
      else some st

def generate_bishop_moves (st : Engine) (idx : Nat) (is_white : Bool) : Option Engine :=
  bishop_directions.foldlM (fun s dir => bishop_ray idx is_white dir 64 s idx) st

/-- The body of the `for` loop of `chess_generate_moves` for the square `idx`.
In the Black branch `piece` lies in `'a'..'z'`, so `piece - ('a' - 'A')` is
computed without wrap-around. -/
def scan_square (is_white : Bool) (st : Engine) (idx : Nat) : Option Engine :=
  let piece := rd st.g_board idx
  if piece == 46 then some st
  else if is_white && !is_white_piece piece then some st
  else if !is_white && !is_black_piece piece then some st
  else
    let normalized := if is_white then piece else piece - (97 - 65)
    if normalized == 80 then some (generate_pawn_moves st idx is_white)
    else if normalized == 78 then some (generate_knight_moves st idx is_white)
    else if normalized == 66 then generate_bishop_moves st idx is_white
    else if normalized == 82 then generate_rook_moves st idx is_white
    else if normalized == 75 then some (generate_king_moves st idx is_white)
    else some st

/-- The C function `chess_generate_moves`: the returned count and the state
after the call. -/
def chess_generate_moves (st : Engine) (is_white : Bool) : Option (Nat × Engine) :=
  match (List.range BOARD_SQUARES).foldlM (scan_square is_white)
      { st with g_move_count := 0 } with
  | none => none
  | some st1 => some (st1.g_move_count, st1)

/-! ## Move applier and random selector -/

/-- The C function `chess_apply_move`: the status code and the state after the
call. -/
def chess_apply_move (st : Engine) (from_ to_ : Nat) : Int × Engine :=
  if from_ ≥ BOARD_SQUARES || to_ ≥ BOARD_SQUARES then (-1, st)
  else
    let moving := rd st.g_board from_
    if moving == 46 then (-2, st)
    else (0, { st with g_board := wr (wr st.g_board to_ moving) from_ 46 })

/-- The C function `chess_random_ai`; `rand` is the C library's generator. -/
def chess_random_ai (rand : Nat → Nat × Nat) (st : Engine) (is_white : Bool) :
    Option (Nat × Engine) :=
  match chess_generate_moves st is_white with
  | none => none
  | some (moves, st1) =>
    if moves == 0 then some (0, st1)
    else
      let draw := rand st1.rand_state
      let choice := draw.1 % moves
      let mv := st1.g_moves choice
      let applied := chess_apply_move { st1 with rand_state := draw.2 } mv.from_ mv.to_
      some (moves, applied.2)

/-- The logical content of the move buffer: entries `0 .. g_move_count - 1`. -/
def buffer (st : Engine) : List ChessMove :=
  (List.range st.g_move_count).map st.g_moves

/-! ## The generated moves as lists

Generation never writes the board, so the squares a generator pushes are a
function of the board alone.  The definitions below compute these squares as
lists; the refinement lemmas further down show that every generator of the
source pushes exactly the moves of its list, in order. -/

/-- The test of the source for a piece of the other colour. -/
def opposing (is_white : Bool) (p : Nat) : Bool :=
  (is_white && is_black_piece p) || (!is_white && is_white_piece p)

/-- The record written by `push_move` for the pair `(from, to)`. -/
def mk_move (b : Board) (p : Nat × Nat) : ChessMove :=
  { from_ := p.1, to_ := p.2, captured := rd b p.2 }

/-- Pushing a list of `(from, to)` pairs, in order. -/
def push_list (st : Engine) (l : List (Nat × Nat)) : Engine :=
  l.foldl (fun s p => push_move s p.1 p.2) st

/-- The squares pushed by `generate_pawn_moves`. -/
def pawn_targets (b : Board) (idx : Nat) (is_white : Bool) : List Nat :=
  let direction : Int := if is_white then -8 else 8
  let one_step : Int := to_int8 (to_int8 idx + direction)
  let attack_left : Int := to_int8 (one_step - 1)
  let attack_right : Int := to_int8 (one_step + 1)
  (if on_board one_step && rd b one_step.toNat == 46 then [to_uint8 one_step] else [])
  ++ (if (on_board attack_left && Int.tmod attack_left 8 != 7)
        && (rd b attack_left.toNat != 46 && opposing is_white (rd b attack_left.toNat))
      then [to_uint8 attack_left] else [])
  ++ (if (on_board attack_right && Int.tmod attack_right 8 != 0)
        && (rd b attack_right.toNat != 46 && opposing is_white (rd b attack_right.toNat))
      then [to_uint8 attack_right] else [])

/-- The square pushed by one iteration of the knight loop, if any. -/
def knight_target (b : Board) (idx : Nat) (is_white : Bool) (jump : Int) : Option Nat :=
  let target : Int := to_int8 (to_int8 idx + jump)
  let file_diff := (Int.tmod target 8 - Int.tmod idx 8).natAbs
  let rank_diff := (Int.tdiv target 8 - Int.tdiv idx 8).natAbs
  if on_board target
      && ((file_diff == 1 && rank_diff == 2) || (file_diff == 2 && rank_diff == 1))
      && (rd b target.toNat == 46 || opposing is_white (rd b target.toNat))
  then some (to_uint8 target) else none

/-- The squares pushed by `generate_knight_moves`. -/
def knight_targets (b : Board) (idx : Nat) (is_white : Bool) : List Nat :=
  knight_jumps.filterMap (knight_target b idx is_white)

/-- The square pushed by one iteration of the king loop, if any. -/
def king_target (b : Board) (idx : Nat) (is_white : Bool) (delta : Int) : Option Nat :=
  let target : Int := to_int8 (to_int8 idx + delta)
  let file_diff := (Int.tmod target 8 - Int.tmod idx 8).natAbs
  let rank_diff := (Int.tdiv target 8 - Int.tdiv idx 8).natAbs
  if on_board target
      && !(decide (file_diff > 1) || decide (rank_diff > 1))
      && (rd b target.toNat == 46 || opposing is_white (rd b target.toNat))
  then some (to_uint8 target) else none

/-- The squares pushed by `generate_king_moves`. -/
def king_targets (b : Board) (idx : Nat) (is_white : Bool) : List Nat :=
  king_deltas.filterMap (king_target b idx is_white)

/-- The squares pushed by a slider's `while (1)` loop; `stop target current`
is the edge test of the loop.  `none` when the fuel runs out. -/
def ray_targets (stop : Int → Nat → Bool) (b : Board) (is_white : Bool) (dir : Int) :
    Nat → Nat → Option (List Nat)
  | 0, _ => none
  | fuel + 1, current =>
    let target : Int := to_int8 (to_int8 current + dir)
    if !on_board target then some []
    else if stop target current then some []
    else if rd b target.toNat == 46 then
      (ray_targets stop b is_white dir fuel (to_uint8 target)).map
        (fun l => to_uint8 target :: l)
    else if opposing is_white (rd b target.toNat) then some [to_uint8 target]
    else some []

/-- The edge test of the rook loop. -/
def rook_stop (dir : Int) (target : Int) (current : Nat) : Bool :=
  (dir == -1 || dir == 1) && Int.tdiv target 8 != Int.tdiv current 8

/-- The edge test of the bishop loop. -/
def bishop_stop (target : Int) (current : Nat) : Bool :=
  (Int.tmod target 8 - Int.tmod current 8).natAbs != 1

/-- Running the rays of a list of directions one after the other. -/
def rays_targets (ray : Int → Option (List Nat)) : List Int → Option (List Nat)
  | [] => some []
  | dir :: rest =>
    match ray dir, rays_targets ray rest with
    | some l, some r => some (l ++ r)
    | _, _ => none

/-- The squares pushed by `generate_rook_moves`. -/
def rook_targets (b : Board) (idx : Nat) (is_white : Bool) : Option (List Nat) :=
  rays_targets (fun dir => ray_targets (rook_stop dir) b is_white dir 64 idx) rook_directions

/-- The squares pushed by `generate_bishop_moves`. -/
def bishop_targets (b : Board) (idx : Nat) (is_white : Bool) : Option (List Nat) :=
  rays_targets (fun dir => ray_targets bishop_stop b is_white dir 64 idx) bishop_directions

/-- The squares pushed by the loop body of `chess_generate_moves` at `idx`. -/
def square_targets (b : Board) (is_white : Bool) (idx : Nat) : Option (List Nat) :=
  let piece := rd b idx
  if piece == 46 then some []
  else if is_white && !is_white_piece piece then some []
  else if !is_white && !is_black_piece piece then some []
  else
    let normalized := if is_white then piece else piece - (97 - 65)
    if normalized == 80 then some (pawn_targets b idx is_white)
    else if normalized == 78 then some (knight_targets b idx is_white)
    else if normalized == 66 then bishop_targets b idx is_white
    else if normalized == 82 then rook_targets b idx is_white
    else if normalized == 75 then some (king_targets b idx is_white)
    else some []

/-- The `(from, to)` pairs pushed while scanning the squares of a list. -/
def scan_moves (b : Board) (is_white : Bool) : List Nat → Option (List (Nat × Nat))
  | [] => some []
  | idx :: rest =>
    match square_targets b is_white idx, scan_moves b is_white rest with
    | some l, some r => some (l.map (Prod.mk idx) ++ r)
    | _, _ => none

/-- The `(from, to)` pairs pushed by `chess_generate_moves`, before the
capacity of the buffer cuts them. -/
def all_moves (b : Board) (is_white : Bool) : Option (List (Nat × Nat)) :=
  scan_moves b is_white (List.range BOARD_SQUARES)

/-- The board written by `set_start_position`. -/
def start_board : Board :=
  (List.range BOARD_SQUARES).foldl (fun b i => wr b i (start_bytes.getD i 0)) (fun _ => 46)

/-! ## Vocabulary of the statements: squares, colours, shapes of moves -/

/-- File (column) of a square. -/
def file (s : Nat) : Nat := s % 8

/-- Rank (row) of a square. -/
def rank (s : Nat) : Nat := s / 8

/-- Distance in files between two squares. -/
def file_diff (s t : Nat) : Nat := ((file t : Int) - (file s : Int)).natAbs

/-- Distance in ranks between two squares. -/
def rank_diff (s t : Nat) : Nat := ((rank t : Int) - (rank s : Int)).natAbs

/-- The single forward step of a pawn: eight squares down the index for White,
eight up for Black. -/
def pawn_forward (is_white : Bool) (s t : Nat) : Prop :=
  if is_white then t + 8 = s else t = s + 8

/-- The square `t` is exactly one rank forward of `s` for the given colour. -/
def one_rank_forward (is_white : Bool) (s t : Nat) : Prop :=
  if is_white then rank t + 1 = rank s else rank t = rank s + 1

/-- The squares a slider's loop can push from `cur`: `Ray stop b dir cur t`
holds when `t` is reached from `cur` by steps of `dir` that all pass the edge
test `stop` and stay on the board, every square before `t` on the way being
empty. -/
inductive Ray (stop : Int → Nat → Bool) (b : Board) (dir : Int) : Nat → Nat → Prop
  | one {cur t : Nat} : cur < 64 → t < 64 → (t : Int) = cur + dir →
      stop (t : Int) cur = false → Ray stop b dir cur t
  | more {cur mid t : Nat} : cur < 64 → mid < 64 → (mid : Int) = cur + dir →
      stop (mid : Int) cur = false → rd b mid = 46 → Ray stop b dir mid t →
      Ray stop b dir cur t

/-- The edge test `stop` lets a step of `dir` through only when it changes the
file by `df` and the rank by `dr`. -/
def StepGeom (stop : Int → Nat → Bool) (dir df dr : Int) : Prop :=
  ∀ cur mid : Nat, cur < 64 → mid < 64 → (mid : Int) = cur + dir →
    stop (mid : Int) cur = false →
    (file mid : Int) = file cur + df ∧ (rank mid : Int) = rank cur + dr

/-- The number `s` lies strictly between `a` and `c`. -/
def strictly_between (a s c : Nat) : Prop := (a < s ∧ s < c) ∨ (c < s ∧ s < a)

/-- The square `s` lies strictly between `f` and `t` on their common rank or file. -/
def between_on_line (f s t : Nat) : Prop :=
  (rank s = rank f ∧ rank s = rank t ∧ strictly_between (file f) (file s) (file t))
  ∨ (file s = file f ∧ file s = file t ∧ strictly_between (rank f) (rank s) (rank t))

/-- The square `s` lies strictly between `f` and `t` on the diagonal through `f`. -/
def between_on_diagonal (f s t : Nat) : Prop :=
  strictly_between (file f) (file s) (file t) ∧ strictly_between (rank f) (rank s) (rank t)
  ∧ file_diff f s = rank_diff f s

/-- A piece of the colour of the side to move: an uppercase letter for White, a
lowercase letter for Black. -/
def own (is_white : Bool) (p : Nat) : Bool :=
  if is_white then is_white_piece p else is_black_piece p

/-- The value `normalized` on which `chess_generate_moves` dispatches. -/
def normalized (is_white : Bool) (p : Nat) : Nat :=
  if is_white then p else p - (97 - 65)

/-- The shape of a rook move from `f` to `t`. -/
def RookShape (b : Board) (f t : Nat) : Prop :=
  (rank t = rank f ∨ file t = file f) ∧ ∀ s, between_on_line f s t → rd b s = 46

/-- The shape of a bishop move from `f` to `t`. -/
def BishopShape (b : Board) (f t : Nat) : Prop :=
  file_diff f t = rank_diff f t ∧ 0 < file_diff f t
  ∧ ∀ s, between_on_diagonal f s t → rd b s = 46

/-- The shape of a knight move from `f` to `t`. -/
def KnightShape (f t : Nat) : Prop :=
  (file_diff f t = 1 ∧ rank_diff f t = 2) ∨ (file_diff f t = 2 ∧ rank_diff f t = 1)

/-- The shape of a king move from `f` to `t`. -/
def KingShape (f t : Nat) : Prop := file_diff f t ≤ 1 ∧ rank_diff f t ≤ 1

/-- The shape of a pawn move from `f` to `t`: the forward step onto an empty
square, or a capture one rank forward and one file aside. -/
def PawnShape (b : Board) (is_white : Bool) (f t : Nat) : Prop :=
  (pawn_forward is_white f t ∧ rd b t = 46)
  ∨ (one_rank_forward is_white f t ∧ file_diff f t = 1 ∧ rd b t ≠ 46
      ∧ opposing is_white (rd b t) = true)

/-- What `chess_generate_moves` may push for the square `f`: the squares are on
the board and distinct, `f` holds a piece of the side to move, `t` is empty or
holds a piece of the other colour, and the move has the shape of the piece
type on which the source dispatches (`'P'`, `'N'`, `'B'`, `'R'`, `'K'`). -/
def MoveSpec (b : Board) (is_white : Bool) (f t : Nat) : Prop :=
  f < 64 ∧ t < 64 ∧ t ≠ f ∧ rd b f ≠ 46 ∧ own is_white (rd b f) = true
  ∧ (rd b t = 46 ∨ opposing is_white (rd b t) = true)
  ∧ ((normalized is_white (rd b f) = 80 ∧ PawnShape b is_white f t)
    ∨ (normalized is_white (rd b f) = 78 ∧ KnightShape f t)
    ∨ (normalized is_white (rd b f) = 66 ∧ BishopShape b f t)
    ∨ (normalized is_white (rd b f) = 82 ∧ RookShape b f t)
    ∨ (normalized is_white (rd b f) = 75 ∧ KingShape f t))

/-- The board byte of the piece with uppercase letter `letter` for the given
side: the letter itself for White, its lowercase for Black. -/
def piece_of (is_white : Bool) (letter : Nat) : Nat :=
  if is_white then letter else letter + (97 - 65)

/-! ## Concrete states for examples -/

/-- A concrete engine state (all bytes zero) used as the prior state in examples. -/
def blank_engine : Engine :=
  { g_board := fun _ => 0
    g_moves := fun _ => { from_ := 0, to_ := 0, captured := 0 }
    g_move_count := 0
    rand_state := 0 }

/-- A linear congruential generator standing for the C library's `rand` in examples. -/
def example_rand (s : Nat) : Nat × Nat :=
  ((s * 1103515245 + 12345) % 2147483648, (s * 1103515245 + 12345) % 2147483648)

/-- A concrete engine state whose only pieces are white queens on squares 27 and
36 and the black king on square 4. -/
def queens_engine : Engine :=
  { g_board := wr (wr (wr (fun _ => 46) 27 81) 36 81) 4 107
    g_moves := fun _ => { from_ := 0, to_ := 0, captured := 0 }
    g_move_count := 5
    rand_state := 42 }

/-- The board left by `chess_apply_move`, as a function of the board before. -/
def apply_board (b : Board) (from_ to_ : Nat) : Board :=
  if from_ ≥ 64 ∨ to_ ≥ 64 then b
  else if rd b from_ = 46 then b
  else wr (wr b to_ (rd b from_)) from_ 46

/-- A caller running `chess_random_ai` for a sequence of sides, one call after the
other on the same engine: the count returned by every call and the board after
it. -/
def run_random_ai (rand : Nat → Nat × Nat) : Engine → List Bool → Option (List (Nat × Board))
  | _, [] => some []
  | st, w :: rest =>
    match chess_random_ai rand st w with
    | none => none
    | some (n, st') => (run_random_ai rand st' rest).map (fun tr => (n, st'.g_board) :: tr)

/-- Number of squares of the board holding a piece of the given colour. -/
def count_colour (b : Board) (is_white : Bool) : Nat :=
  (List.range 64).countP (fun s => own is_white (rd b s))

/-- In the table `l`, the entry `x` stands at an earlier position than the entry `y`. -/
def earlier_in (l : List Int) (x y : Int) : Prop :=
  ∃ a b : Nat, a < b ∧ l[a]? = some x ∧ l[b]? = some y

/-- A concrete engine state with a white rook on square 27, a white bishop on
square 36, a white pawn on square 29 and a black pawn on square 11. -/
def sliders_engine : Engine :=
  { g_board := wr (wr (wr (wr (fun _ => 46) 27 82) 36 66) 29 80) 11 112
    g_moves := fun _ => { from_ := 0, to_ := 0, captured := 0 }
    g_move_count := 0
    rand_state := 42 }

/-! ## Basic facts on the buffer -/

theorem push_move_board (st : Engine) (f t : Nat) :
    (push_move st f t).g_board = st.g_board := by
  unfold push_move
  split <;> rfl

theorem push_move_rand (st : Engine) (f t : Nat) :
    (push_move st f t).rand_state = st.rand_state := by
  unfold push_move
  split <;> rfl

theorem push_list_nil (st : Engine) : push_list st [] = st := rfl

theorem push_list_cons (st : Engine) (p : Nat × Nat) (l : List (Nat × Nat)) :
    push_list st (p :: l) = push_list (push_move st p.1 p.2) l := rfl

theorem push_list_append (st : Engine) (l₁ l₂ : List (Nat × Nat)) :
    push_list st (l₁ ++ l₂) = push_list (push_list st l₁) l₂ := by
  simp [push_list, List.foldl_append]

theorem push_list_board (st : Engine) (l : List (Nat × Nat)) :
    (push_list st l).g_board = st.g_board := by
  induction l generalizing st with
  | nil => rfl
  | cons p l ih => rw [push_list_cons, ih, push_move_board]

theorem push_list_rand (st : Engine) (l : List (Nat × Nat)) :
    (push_list st l).rand_state = st.rand_state := by
  induction l generalizing st with
  | nil => rfl
  | cons p l ih => rw [push_list_cons, ih, push_move_rand]

/-! ## Refinement: every generator pushes the moves of its list -/

/-- The shape of `generate_pawn_moves`: three guarded pushes in a row, the
guards of the second and third reading the board of the state they start
from. -/
theorem three_pushes (st : Engine) (idx t₁ t₂ t₃ : Nat) (c₁ c₂ c₃ : Bool)
    (d₂ d₃ : Board → Bool) :
    (let st1 := if c₁ then push_move st idx t₁ else st
     let st2 := if c₂ then (if d₂ st1.g_board then push_move st1 idx t₂ else st1) else st1
     if c₃ then (if d₃ st2.g_board then push_move st2 idx t₃ else st2) else st2)
    = push_list st (((if c₁ then [t₁] else [])
        ++ (if c₂ && d₂ st.g_board then [t₂] else [])
        ++ (if c₃ && d₃ st.g_board then [t₃] else [])).map (Prod.mk idx)) := by
  have hb : ∀ s : Engine, ∀ t, (push_move s idx t).g_board = s.g_board :=
    fun s t => push_move_board s idx t
  cases c₁ <;> cases c₂ <;> cases c₃ <;> simp only [hb, Bool.false_and, Bool.true_and,
      if_true, if_false, Bool.false_eq_true, List.nil_append, List.append_nil] <;>
    (try cases h₂ : d₂ st.g_board) <;> (try cases h₃ : d₃ st.g_board) <;>
    simp [push_list, hb, *]

theorem generate_pawn_moves_eq (st : Engine) (idx : Nat) (w : Bool) :
    generate_pawn_moves st idx w
      = push_list st ((pawn_targets st.g_board idx w).map (Prod.mk idx)) := by
  unfold generate_pawn_moves pawn_targets opposing
  exact three_pushes st idx _ _ _ _ _ _
    (fun b => rd b (to_int8 (to_int8 (to_int8 idx + (if w then -8 else 8)) - 1)).toNat != 46 &&
      ((w && is_black_piece (rd b (to_int8 (to_int8 (to_int8 idx + (if w then -8 else 8)) - 1)).toNat))
        || (!w && is_white_piece (rd b (to_int8 (to_int8 (to_int8 idx + (if w then -8 else 8)) - 1)).toNat))))
    (fun b => rd b (to_int8 (to_int8 (to_int8 idx + (if w then -8 else 8)) + 1)).toNat != 46 &&
      ((w && is_black_piece (rd b (to_int8 (to_int8 (to_int8 idx + (if w then -8 else 8)) + 1)).toNat))
        || (!w && is_white_piece (rd b (to_int8 (to_int8 (to_int8 idx + (if w then -8 else 8)) + 1)).toNat))))

/-- The shape of one iteration of the knight loop. -/
theorem guarded_push_knight (st : Engine) (idx t : Nat) (a b x y z : Bool) :
    (if !a then st else if !b then st else if x || y || z then push_move st idx t else st)
      = push_list st
          ((if a && b && (x || (y || z)) then some t else none).toList.map (Prod.mk idx)) := by
  cases a <;> cases b <;> cases x <;> cases y <;> cases z <;> rfl

/-- The shape of one iteration of the king loop. -/
theorem guarded_push_king (st : Engine) (idx t : Nat) (a b x y z : Bool) :
    (if !a then st else if b then st else if x || y || z then push_move st idx t else st)
      = push_list st
          ((if a && !b && (x || (y || z)) then some t else none).toList.map (Prod.mk idx)) := by
  cases a <;> cases b <;> cases x <;> cases y <;> cases z <;> rfl

theorem knight_step_eq (st : Engine) (idx : Nat) (w : Bool) (jump : Int) :
    knight_step idx w st jump
      = push_list st ((knight_target st.g_board idx w jump).toList.map (Prod.mk idx)) := by
  unfold knight_step knight_target opposing
  exact guarded_push_knight st idx _ _ _ _ _ _

theorem king_step_eq (st : Engine) (idx : Nat) (w : Bool) (delta : Int) :
    king_step idx w st delta
      = push_list st ((king_target st.g_board idx w delta).toList.map (Prod.mk idx)) := by
  unfold king_step king_target opposing
  exact guarded_push_king st idx _ _ _ _ _ _

/-- A `for` loop whose body pushes at most one move per table entry pushes
the `filterMap` of the table. -/
theorem foldl_step_eq (idx : Nat) (step : Engine → Int → Engine)
    (tgt : Board → Int → Option Nat)
    (h : ∀ st j, step st j = push_list st ((tgt st.g_board j).toList.map (Prod.mk idx)))
    (l : List Int) (st : Engine) :
    l.foldl step st = push_list st ((l.filterMap (tgt st.g_board)).map (Prod.mk idx)) := by
  induction l generalizing st with
  | nil => rfl
  | cons j l ih =>
    rw [List.foldl_cons, ih, h, push_list_board, ← push_list_append]
    congr 1
    cases hj : tgt st.g_board j <;> simp [List.filterMap_cons, hj]

theorem generate_knight_moves_eq (st : Engine) (idx : Nat) (w : Bool) :
    generate_knight_moves st idx w
      = push_list st ((knight_targets st.g_board idx w).map (Prod.mk idx)) :=
  foldl_step_eq idx (knight_step idx w) (fun b => knight_target b idx w)
    (fun s j => knight_step_eq s idx w j) knight_jumps st

theorem generate_king_moves_eq (st : Engine) (idx : Nat) (w : Bool) :
    generate_king_moves st idx w
      = push_list st ((king_targets st.g_board idx w).map (Prod.mk idx)) :=
  foldl_step_eq idx (king_step idx w) (fun b => king_target b idx w)
    (fun s j => king_step_eq s idx w j) king_deltas st

theorem rook_ray_eq (idx : Nat) (w : Bool) (dir : Int) (fuel : Nat) (st : Engine)
    (current : Nat) :
    rook_ray idx w dir fuel st current
      = (ray_targets (rook_stop dir) st.g_board w dir fuel current).map
          (fun l => push_list st (l.map (Prod.mk idx))) := by
  induction fuel generalizing st current with
  | zero => rfl
  | succ n ih =>
    unfold rook_ray ray_targets
    simp only [rook_stop, opposing]
    split
    · rfl
    split
    · rfl
    split
    · rw [ih, push_move_board, Option.map_map]
      rfl
    split <;> rfl

theorem bishop_ray_eq (idx : Nat) (w : Bool) (dir : Int) (fuel : Nat) (st : Engine)
    (current : Nat) :
    bishop_ray idx w dir fuel st current
      = (ray_targets bishop_stop st.g_board w dir fuel current).map
          (fun l => push_list st (l.map (Prod.mk idx))) := by
  induction fuel generalizing st current with
  | zero => rfl
  | succ n ih =>
    unfold bishop_ray ray_targets
    simp only [bishop_stop, opposing]
    split
    · rfl
    split
    · rfl
    split
    · rw [ih, push_move_board, Option.map_map]
      rfl
    split <;> rfl

/-- Rays run one after the other push the concatenation of their lists. -/
theorem foldlM_rays_eq (idx : Nat) (ray : Engine → Int → Option Engine)
    (tg : Board → Int → Option (List Nat))
    (h : ∀ s d, ray s d = (tg s.g_board d).map (fun l => push_list s (l.map (Prod.mk idx))))
    (dirs : List Int) (st : Engine) :
    dirs.foldlM ray st
      = (rays_targets (tg st.g_board) dirs).map
          (fun l => push_list st (l.map (Prod.mk idx))) := by
  induction dirs generalizing st with
  | nil => rfl
  | cons d rest ih =>
    rw [List.foldlM_cons, h]
    unfold rays_targets
    cases hd : tg st.g_board d with
    | none => rfl
    | some l =>
      simp only [Option.map_some', Option.bind_eq_bind, Option.some_bind]
      rw [ih, push_list_board]
      cases hr : rays_targets (tg st.g_board) rest with
      | none => rfl
      | some r => simp [push_list_append]

theorem generate_rook_moves_eq (st : Engine) (idx : Nat) (w : Bool) :
    generate_rook_moves st idx w
      = (rook_targets st.g_board idx w).map
          (fun l => push_list st (l.map (Prod.mk idx))) :=
  foldlM_rays_eq idx (fun s dir => rook_ray idx w dir 64 s idx)
    (fun b dir => ray_targets (rook_stop dir) b w dir 64 idx)
    (fun s d => rook_ray_eq idx w d 64 s idx) rook_directions st

theorem generate_bishop_moves_eq (st : Engine) (idx : Nat) (w : Bool) :
    generate_bishop_moves st idx w
      = (bishop_targets st.g_board idx w).map
          (fun l => push_list st (l.map (Prod.mk idx))) :=
  foldlM_rays_eq idx (fun s dir => bishop_ray idx w dir 64 s idx)
    (fun b dir => ray_targets bishop_stop b w dir 64 idx)
    (fun s d => bishop_ray_eq idx w d 64 s idx) bishop_directions st

theorem scan_square_eq (w : Bool) (st : Engine) (idx : Nat) :
    scan_square w st idx
      = (square_targets st.g_board w idx).map
          (fun l => push_list st (l.map (Prod.mk idx))) := by
  unfold scan_square square_targets
  simp only [generate_pawn_moves_eq, generate_knight_moves_eq, generate_king_moves_eq,
    generate_rook_moves_eq, generate_bishop_moves_eq,
    apply_ite (Option.map (fun (l : List Nat) => push_list st (l.map (Prod.mk idx)))),
    Option.map_some', List.map_nil, push_list_nil]

theorem foldlM_scan_eq (w : Bool) (sqs : List Nat) (st : Engine) :
    sqs.foldlM (scan_square w) st
      = (scan_moves st.g_board w sqs).map (push_list st) := by
  induction sqs generalizing st with
  | nil => rfl
  | cons idx rest ih =>
    rw [List.foldlM_cons, scan_square_eq]
    unfold scan_moves
    cases hd : square_targets st.g_board w idx with
    | none => rfl
    | some l =>
      simp only [Option.map_some', Option.bind_eq_bind, Option.some_bind]
      rw [ih, push_list_board]
      cases hr : scan_moves st.g_board w rest with
      | none => rfl
      | some r => simp [push_list_append]

/-- Refinement of `chess_generate_moves`: the state after the call is the
state with the logical length reset and the moves of `all_moves` pushed in
order, and the returned count is its logical length. -/
theorem chess_generate_moves_eq (st : Engine) (w : Bool) :
    chess_generate_moves st w
      = (all_moves st.g_board w).map (fun l =>
          ((push_list { st with g_move_count := 0 } l).g_move_count,
            push_list { st with g_move_count := 0 } l)) := by
  unfold chess_generate_moves all_moves
  rw [foldlM_scan_eq]
  cases scan_moves st.g_board w (List.range BOARD_SQUARES) <;> rfl

/-! ## The logical content of the buffer -/

theorem buffer_length (st : Engine) : (buffer st).length = st.g_move_count := by
  simp [buffer]

theorem mem_buffer_of_lt (st : Engine) (i : Nat) (h : i < st.g_move_count) :
    st.g_moves i ∈ buffer st :=
  List.mem_map.mpr ⟨i, List.mem_range.mpr h, rfl⟩

theorem buffer_push_move (st : Engine) (f t : Nat) (h : st.g_move_count < MOVE_BUFFER_SIZE) :
    buffer (push_move st f t) = buffer st ++ [mk_move st.g_board (f, t)] := by
  have hn : ¬ st.g_move_count ≥ MOVE_BUFFER_SIZE := Nat.not_le.mpr h
  simp only [push_move, hn, if_false, buffer, List.range_succ, List.map_append,
    List.map_cons, List.map_nil, if_true, mk_move]
  congr 1
  apply List.map_congr_left
  intro i hi
  have : i ≠ st.g_move_count := Nat.ne_of_lt (List.mem_range.mp hi)
  simp [this]

theorem push_move_full (st : Engine) (f t : Nat) (h : MOVE_BUFFER_SIZE ≤ st.g_move_count) :
    push_move st f t = st := by
  simp [push_move, h]

/-- Pushing a list appends as many of its moves as the capacity allows. -/
theorem buffer_push_list (l : List (Nat × Nat)) (st : Engine)
    (h : st.g_move_count ≤ MOVE_BUFFER_SIZE) :
    buffer (push_list st l)
      = buffer st ++ (l.take (MOVE_BUFFER_SIZE - st.g_move_count)).map (mk_move st.g_board) := by
  induction l generalizing st with
  | nil => simp [push_list]
  | cons p l ih =>
    rw [push_list_cons]
    by_cases hc : st.g_move_count < MOVE_BUFFER_SIZE
    · have hcount : (push_move st p.1 p.2).g_move_count = st.g_move_count + 1 := by
        have hn : ¬ st.g_move_count ≥ MOVE_BUFFER_SIZE := Nat.not_le.mpr hc
        simp [push_move, hn]
      rw [ih _ (by rw [hcount]; exact hc), buffer_push_move st p.1 p.2 hc, push_move_board,
        hcount]
      have hk : MOVE_BUFFER_SIZE - st.g_move_count
          = (MOVE_BUFFER_SIZE - (st.g_move_count + 1)) + 1 := by omega
      rw [hk, List.take_succ_cons]
      simp
    · have hfull : MOVE_BUFFER_SIZE ≤ st.g_move_count := Nat.le_of_not_lt hc
      rw [push_move_full st p.1 p.2 hfull, ih st h]
      have hk : MOVE_BUFFER_SIZE - st.g_move_count = 0 := by omega
      simp [hk]

/-- The state reached by `chess_generate_moves` when the scan yields the
list `l`: board and random source untouched, the buffer holding the first
256 moves of `l`. -/
theorem chess_generate_moves_of_all_moves (st : Engine) (w : Bool) (l : List (Nat × Nat))
    (h : all_moves st.g_board w = some l) :
    ∃ st', chess_generate_moves st w = some (st'.g_move_count, st')
      ∧ st'.g_board = st.g_board ∧ st'.rand_state = st.rand_state
      ∧ buffer st' = (l.take MOVE_BUFFER_SIZE).map (mk_move st.g_board) := by
  refine ⟨push_list { st with g_move_count := 0 } l, ?_, ?_, ?_, ?_⟩
  · rw [chess_generate_moves_eq, h]
    rfl
  · rw [push_list_board]
  · rw [push_list_rand]
  · rw [buffer_push_list l _ (Nat.zero_le _)]
    simp [buffer]

/-! ## Termination of the slider loops -/

theorem to_int8_of_small (x : Int) (h₁ : -128 ≤ x) (h₂ : x < 128) : to_int8 x = x := by
  unfold to_int8
  omega

theorem to_uint8_of_small (x : Int) (h₁ : 0 ≤ x) (h₂ : x < 256) : to_uint8 x = x.toNat := by
  unfold to_uint8
  rw [Int.emod_eq_of_lt h₁ h₂]

theorem on_board_iff (x : Int) : on_board x = true ↔ 0 ≤ x ∧ x < 64 := by
  simp [on_board]

/-- A ray in a positive direction leaves the board within `64 - current`
steps. -/
theorem ray_targets_some_of_pos (stop : Int → Nat → Bool) (b : Board) (w : Bool) (dir : Int)
    (hd : 0 < dir) (hd' : dir ≤ 64) (fuel current : Nat) (hc : current < 64)
    (hf : 64 ≤ fuel + current) :
    ∃ l, ray_targets stop b w dir fuel current = some l := by
  induction fuel generalizing current with
  | zero => omega
  | succ n ih =>
    unfold ray_targets
    have h8 : to_int8 (to_int8 (current : Int) + dir) = current + dir := by
      rw [to_int8_of_small (current : Int) (by omega) (by omega)]
      exact to_int8_of_small _ (by omega) (by omega)
    simp only [h8]
    by_cases hb : on_board ((current : Int) + dir) = true
    · have hb' := (on_board_iff _).mp hb
      simp only [hb, Bool.not_true, Bool.false_eq_true, if_false]
      split
      · exact ⟨_, rfl⟩
      split
      · have hu : to_uint8 ((current : Int) + dir) = ((current : Int) + dir).toNat :=
          to_uint8_of_small _ hb'.1 (by omega)
        obtain ⟨l, hl⟩ := ih (to_uint8 ((current : Int) + dir)) (by rw [hu]; omega)
          (by rw [hu]; omega)
        exact ⟨_, by rw [hl]; rfl⟩
      split <;> exact ⟨_, rfl⟩
    · simp only [Bool.not_eq_true] at hb
      simp only [hb, Bool.not_false, if_true]
      exact ⟨_, rfl⟩

/-- A ray in a negative direction leaves the board within `current + 1`
steps. -/
theorem ray_targets_some_of_neg (stop : Int → Nat → Bool) (b : Board) (w : Bool) (dir : Int)
    (hd : dir < 0) (hd' : -64 ≤ dir) (fuel current : Nat) (hc : current < 64)
    (hf : current < fuel) :
    ∃ l, ray_targets stop b w dir fuel current = some l := by
  induction fuel generalizing current with
  | zero => omega
  | succ n ih =>
    unfold ray_targets
    have h8 : to_int8 (to_int8 (current : Int) + dir) = current + dir := by
      rw [to_int8_of_small (current : Int) (by omega) (by omega)]
      exact to_int8_of_small _ (by omega) (by omega)
    simp only [h8]
    by_cases hb : on_board ((current : Int) + dir) = true
    · have hb' := (on_board_iff _).mp hb
      simp only [hb, Bool.not_true, Bool.false_eq_true, if_false]
      split
      · exact ⟨_, rfl⟩
      split
      · have hu : to_uint8 ((current : Int) + dir) = ((current : Int) + dir).toNat :=
          to_uint8_of_small _ hb'.1 (by omega)
        obtain ⟨l, hl⟩ := ih (to_uint8 ((current : Int) + dir)) (by rw [hu]; omega)
          (by rw [hu]; omega)
        exact ⟨_, by rw [hl]; rfl⟩
      split <;> exact ⟨_, rfl⟩
    · simp only [Bool.not_eq_true] at hb
      simp only [hb, Bool.not_false, if_true]
      exact ⟨_, rfl⟩

/-- With fuel 64 every ray started on the board in a non-zero direction of
size at most 64 comes to an end. -/
theorem ray_targets_some (stop : Int → Nat → Bool) (b : Board) (w : Bool) (dir : Int)
    (hd : dir ≠ 0) (hlo : -64 ≤ dir) (hhi : dir ≤ 64) (current : Nat) (hc : current < 64) :
    ∃ l, ray_targets stop b w dir 64 current = some l := by
  rcases Int.lt_or_gt_of_ne hd with h | h
  · exact ray_targets_some_of_neg stop b w dir h hlo 64 current hc hc
  · exact ray_targets_some_of_pos stop b w dir h hhi 64 current hc (by omega)

theorem rays_targets_some (ray : Int → Option (List Nat)) (dirs : List Int)
    (h : ∀ d ∈ dirs, ∃ l, ray d = some l) : ∃ l, rays_targets ray dirs = some l := by
  induction dirs with
  | nil => exact ⟨[], rfl⟩
  | cons d rest ih =>
    obtain ⟨l, hl⟩ := h d (List.mem_cons_self d rest)
    obtain ⟨r, hr⟩ := ih (fun d' hd' => h d' (List.mem_cons_of_mem d hd'))
    exact ⟨l ++ r, by unfold rays_targets; rw [hl, hr]⟩

theorem rook_targets_some (b : Board) (idx : Nat) (w : Bool) (h : idx < 64) :
    ∃ l, rook_targets b idx w = some l := by
  apply rays_targets_some
  intro d hd
  simp only [rook_directions, List.mem_cons, List.mem_singleton, List.not_mem_nil,
    or_false] at hd
  apply ray_targets_some _ b w d _ _ _ idx h <;> omega

theorem bishop_targets_some (b : Board) (idx : Nat) (w : Bool) (h : idx < 64) :
    ∃ l, bishop_targets b idx w = some l := by
  apply rays_targets_some
  intro d hd
  simp only [bishop_directions, List.mem_cons, List.mem_singleton, List.not_mem_nil,
    or_false] at hd
  apply ray_targets_some _ b w d _ _ _ idx h <;> omega

theorem square_targets_some (b : Board) (w : Bool) (idx : Nat) (h : idx < 64) :
    ∃ l, square_targets b w idx = some l := by
  have hb : (bishop_targets b idx w).isSome = true :=
    Option.isSome_iff_exists.mpr (bishop_targets_some b idx w h)
  have hr : (rook_targets b idx w).isSome = true :=
    Option.isSome_iff_exists.mpr (rook_targets_some b idx w h)
  apply Option.isSome_iff_exists.mp
  unfold square_targets
  simp only [apply_ite Option.isSome, Option.isSome_some, hb, hr, ite_self]

theorem scan_moves_some (b : Board) (w : Bool) (sqs : List Nat) (h : ∀ s ∈ sqs, s < 64) :
    ∃ l, scan_moves b w sqs = some l := by
  induction sqs with
  | nil => exact ⟨[], rfl⟩
  | cons s rest ih =>
    obtain ⟨l, hl⟩ := square_targets_some b w s (h s (List.mem_cons_self s rest))
    obtain ⟨r, hr⟩ := ih (fun s' hs' => h s' (List.mem_cons_of_mem s hs'))
    exact ⟨l.map (Prod.mk s) ++ r, by unfold scan_moves; rw [hl, hr]⟩

/-- The scan of the 64 squares always comes to an end: fuel 64 is enough for
every ray on every board. -/
theorem all_moves_some (b : Board) (w : Bool) : ∃ l, all_moves b w = some l :=
  scan_moves_some b w _ (fun _ hs => List.mem_range.mp hs)

/-- The function `chess_generate_moves` is total; its result leaves board and random
source untouched and its buffer holds the first 256 moves of the scan. -/
theorem chess_generate_moves_total (st : Engine) (w : Bool) :
    ∃ l st', all_moves st.g_board w = some l
      ∧ chess_generate_moves st w = some (st'.g_move_count, st')
      ∧ st'.g_board = st.g_board ∧ st'.rand_state = st.rand_state
      ∧ buffer st' = (l.take MOVE_BUFFER_SIZE).map (mk_move st.g_board) := by
  obtain ⟨l, hl⟩ := all_moves_some st.g_board w
  obtain ⟨st', h⟩ := chess_generate_moves_of_all_moves st w l hl
  exact ⟨l, st', hl, h⟩

/-! ## What each generator pushes -/

theorem to_int8_step (idx : Nat) (d : Int) (h : idx < 64) (h₁ : -64 ≤ d) (h₂ : d ≤ 64) :
    to_int8 (to_int8 (idx : Int) + d) = idx + d := by
  unfold to_int8
  omega

theorem tmod_cast (n : Nat) : Int.tmod (n : Int) 8 = ((file n : Nat) : Int) := by
  rw [Int.tmod_eq_emod (by omega) (by omega)]
  unfold file
  omega

theorem tdiv_cast (n : Nat) : Int.tdiv (n : Int) 8 = ((rank n : Nat) : Int) := by
  rw [Int.tdiv_eq_ediv (by omega) (by omega)]
  unfold rank
  omega

/-- An on-board value is the cast of a square below 64, and both conversions of the
source return that square. -/
theorem on_board_nat (x : Int) (h : on_board x = true) :
    ∃ t : Nat, t < 64 ∧ x = (t : Int) ∧ to_uint8 x = t ∧ x.toNat = t := by
  have hb := (on_board_iff x).mp h
  refine ⟨x.toNat, by omega, by omega, ?_, rfl⟩
  exact to_uint8_of_small x hb.1 (by omega)

theorem knight_target_spec (b : Board) (idx : Nat) (w : Bool) (j : Int) (t : Nat)
    (h : idx < 64) (h₁ : -64 ≤ j) (h₂ : j ≤ 64)
    (ht : knight_target b idx w j = some t) :
    (t : Int) = idx + j ∧ t < 64
      ∧ ((file_diff idx t = 1 ∧ rank_diff idx t = 2) ∨ (file_diff idx t = 2 ∧ rank_diff idx t = 1))
      ∧ (rd b t = 46 ∨ opposing w (rd b t) = true) := by
  unfold knight_target at ht
  simp only [to_int8_step idx j h h₁ h₂] at ht
  split at ht
  · rename_i hc
    simp only [Bool.and_eq_true] at hc
    obtain ⟨⟨hb, hL⟩, hocc⟩ := hc
    obtain ⟨t', ht', hx, hu, hn⟩ := on_board_nat _ hb
    rw [hu] at ht
    cases Option.some.inj ht
    rw [hn] at hocc
    rw [hx, tmod_cast, tmod_cast, tdiv_cast, tdiv_cast] at hL
    refine ⟨hx.symm, ht', ?_, ?_⟩
    · simpa [file_diff, rank_diff] using hL
    · simpa using hocc
  · exact absurd ht (by simp)

theorem king_target_spec (b : Board) (idx : Nat) (w : Bool) (j : Int) (t : Nat)
    (h : idx < 64) (h₁ : -64 ≤ j) (h₂ : j ≤ 64)
    (ht : king_target b idx w j = some t) :
    (t : Int) = idx + j ∧ t < 64
      ∧ file_diff idx t ≤ 1 ∧ rank_diff idx t ≤ 1
      ∧ (rd b t = 46 ∨ opposing w (rd b t) = true) := by
  unfold king_target at ht
  simp only [to_int8_step idx j h h₁ h₂] at ht
  split at ht
  · rename_i hc
    simp only [Bool.and_eq_true] at hc
    obtain ⟨⟨hb, hL⟩, hocc⟩ := hc
    obtain ⟨t', ht', hx, hu, hn⟩ := on_board_nat _ hb
    rw [hu] at ht
    cases Option.some.inj ht
    rw [hn] at hocc
    rw [hx, tmod_cast, tmod_cast, tdiv_cast, tdiv_cast] at hL
    have hL' : file_diff idx t ≤ 1 ∧ rank_diff idx t ≤ 1 := by
      simpa [file_diff, rank_diff] using hL
    refine ⟨hx.symm, ht', hL'.1, hL'.2, ?_⟩
    simpa using hocc
  · exact absurd ht (by simp)

theorem knight_jumps_small (j : Int) (hj : j ∈ knight_jumps) : j ≠ 0 ∧ -64 ≤ j ∧ j ≤ 64 := by
  simp only [knight_jumps, List.mem_cons, List.mem_singleton, List.not_mem_nil, or_false] at hj
  omega

theorem king_deltas_small (j : Int) (hj : j ∈ king_deltas) : j ≠ 0 ∧ -64 ≤ j ∧ j ≤ 64 := by
  simp only [king_deltas, List.mem_cons, List.mem_singleton, List.not_mem_nil, or_false] at hj
  omega

/-- Every square pushed for a knight is an L-shaped jump away, on the board, and
empty or held by the other colour. -/
theorem knight_targets_spec (b : Board) (idx : Nat) (w : Bool) (t : Nat) (h : idx < 64)
    (ht : t ∈ knight_targets b idx w) :
    t < 64 ∧ t ≠ idx
      ∧ ((file_diff idx t = 1 ∧ rank_diff idx t = 2) ∨ (file_diff idx t = 2 ∧ rank_diff idx t = 1))
      ∧ (rd b t = 46 ∨ opposing w (rd b t) = true) := by
  obtain ⟨j, hj, hjt⟩ := List.mem_filterMap.mp ht
  obtain ⟨h0, h₁, h₂⟩ := knight_jumps_small j hj
  obtain ⟨he, hlt, hL, hocc⟩ := knight_target_spec b idx w j t h h₁ h₂ hjt
  exact ⟨hlt, by omega, hL, hocc⟩

/-- Every square pushed for a king is at most one file and one rank away, on the
board, different from the king's square, and empty or held by the other colour. -/
theorem king_targets_spec (b : Board) (idx : Nat) (w : Bool) (t : Nat) (h : idx < 64)
    (ht : t ∈ king_targets b idx w) :
    t < 64 ∧ t ≠ idx ∧ file_diff idx t ≤ 1 ∧ rank_diff idx t ≤ 1
      ∧ (rd b t = 46 ∨ opposing w (rd b t) = true) := by
  obtain ⟨j, hj, hjt⟩ := List.mem_filterMap.mp ht
  obtain ⟨h0, h₁, h₂⟩ := king_deltas_small j hj
  obtain ⟨he, hlt, hf, hr, hocc⟩ := king_target_spec b idx w j t h h₁ h₂ hjt
  exact ⟨hlt, by omega, hf, hr, hocc⟩

theorem mem_ite_singleton {c : Prop} [Decidable c] {t x : Nat}
    (h : t ∈ (if c then [x] else [])) : c ∧ t = x := by
  split at h
  · rename_i hc
    exact ⟨hc, List.mem_singleton.mp h⟩
  · exact absurd h (List.not_mem_nil t)

/-- Every square pushed for a pawn is the empty square one step forward, or a
square one rank forward and one file aside held by the other colour. -/
theorem pawn_targets_spec (b : Board) (idx : Nat) (w : Bool) (t : Nat) (h : idx < 64)
    (ht : t ∈ pawn_targets b idx w) :
    t < 64 ∧ ((pawn_forward w idx t ∧ rd b t = 46)
      ∨ (one_rank_forward w idx t ∧ file_diff idx t = 1 ∧ rd b t ≠ 46
          ∧ opposing w (rd b t) = true)) := by
  unfold pawn_targets at ht
  have hdir : -64 ≤ (if w = true then (-8 : Int) else 8) ∧ (if w = true then (-8 : Int) else 8) ≤ 64 := by
    cases w <;> simp
  have hdir' : (if w = true then (-8 : Int) else 8) = -8 ∧ w = true
      ∨ (if w = true then (-8 : Int) else 8) = 8 ∧ w = false := by
    cases w <;> simp
  simp only [to_int8_step idx _ h hdir.1 hdir.2] at ht
  generalize (if w = true then (-8 : Int) else 8) = dir at ht hdir hdir'
  have e1 : to_int8 ((idx : Int) + dir - 1) = idx + dir - 1 :=
    to_int8_of_small _ (by omega) (by omega)
  have e2 : to_int8 ((idx : Int) + dir + 1) = idx + dir + 1 :=
    to_int8_of_small _ (by omega) (by omega)
  simp only [e1, e2] at ht
  rcases List.mem_append.mp ht with h12 | h3
  · rcases List.mem_append.mp h12 with h1 | h2
    · obtain ⟨hc, rfl⟩ := mem_ite_singleton h1
      simp only [Bool.and_eq_true, beq_iff_eq] at hc
      obtain ⟨t', ht', hx, hu, hn⟩ := on_board_nat _ hc.1
      rw [hu]
      rw [hn] at hc
      refine ⟨ht', Or.inl ⟨?_, hc.2⟩⟩
      unfold pawn_forward
      rcases hdir' with ⟨hd, hw⟩ | ⟨hd, hw⟩ <;> simp only [hw, if_true, Bool.false_eq_true, if_false] <;> omega
    · obtain ⟨hc, rfl⟩ := mem_ite_singleton h2
      simp only [Bool.and_eq_true, bne_iff_ne, ne_eq] at hc
      obtain ⟨⟨hb, hm⟩, hne, hopp⟩ := hc
      obtain ⟨t', ht', hx, hu, hn⟩ := on_board_nat _ hb
      rw [hu]
      rw [hn] at hne hopp
      rw [hx, tmod_cast] at hm
      refine ⟨ht', Or.inr ⟨?_, ?_, hne, hopp⟩⟩
      · unfold one_rank_forward rank
        unfold file at hm
        rcases hdir' with ⟨hd, hw⟩ | ⟨hd, hw⟩ <;> simp only [hw, if_true, Bool.false_eq_true, if_false] <;> omega
      · unfold file_diff file
        unfold file at hm
        omega
  · obtain ⟨hc, rfl⟩ := mem_ite_singleton h3
    simp only [Bool.and_eq_true, bne_iff_ne, ne_eq] at hc
    obtain ⟨⟨hb, hm⟩, hne, hopp⟩ := hc
    obtain ⟨t', ht', hx, hu, hn⟩ := on_board_nat _ hb
    rw [hu]
    rw [hn] at hne hopp
    rw [hx, tmod_cast] at hm
    refine ⟨ht', Or.inr ⟨?_, ?_, hne, hopp⟩⟩
    · unfold one_rank_forward rank
      unfold file at hm
      rcases hdir' with ⟨hd, hw⟩ | ⟨hd, hw⟩ <;> simp only [hw, if_true, Bool.false_eq_true, if_false] <;> omega
    · unfold file_diff file
      unfold file at hm
      omega

/-- Every square pushed by a slider's loop is reached along the ray through
empty squares, and is itself empty or held by the other colour. -/
theorem ray_targets_spec (stop : Int → Nat → Bool) (b : Board) (w : Bool) (dir : Int)
    (h₁ : -64 ≤ dir) (h₂ : dir ≤ 64) (fuel : Nat) :
    ∀ (current : Nat) (l : List Nat), current < 64 →
      ray_targets stop b w dir fuel current = some l →
      ∀ t ∈ l, Ray stop b dir current t ∧ (rd b t = 46 ∨ opposing w (rd b t) = true) := by
  induction fuel with
  | zero =>
    intro current l _ h
    exact absurd h (by simp [ray_targets])
  | succ n ih =>
    intro current l hc h t ht
    unfold ray_targets at h
    simp only [to_int8_step current dir hc h₁ h₂] at h
    by_cases hb : on_board ((current : Int) + dir) = true
    · obtain ⟨c, hc64, hx, hu, hn⟩ := on_board_nat _ hb
      rw [hx] at h hb hu hn
      simp only [hb, Bool.not_true, Bool.false_eq_true, if_false, hu, hn] at h
      by_cases hs : stop (c : Int) current = true
      · simp only [hs, if_true] at h
        cases Option.some.inj h
        exact absurd ht (List.not_mem_nil t)
      · have hs' : stop (c : Int) current = false := by simpa using hs
        simp only [hs', Bool.false_eq_true, if_false] at h
        by_cases he : rd b c = 46
        · simp only [he, beq_self_eq_true, if_true] at h
          obtain ⟨l', hl', hcons⟩ := Option.map_eq_some'.mp h
          subst hcons
          rcases List.mem_cons.mp ht with rfl | ht'
          · exact ⟨Ray.one hc hc64 hx.symm hs', Or.inl he⟩
          · obtain ⟨hray, hocc⟩ := ih c l' hc64 hl' t ht'
            exact ⟨Ray.more hc hc64 hx.symm hs' he hray, hocc⟩
        · have he' : (rd b c == 46) = false := by simpa using he
          simp only [he', Bool.false_eq_true, if_false] at h
          by_cases ho : opposing w (rd b c) = true
          · simp only [ho, if_true] at h
            cases Option.some.inj h
            cases List.mem_singleton.mp ht
            exact ⟨Ray.one hc hc64 hx.symm hs', Or.inr ho⟩
          · simp only [ho, if_false] at h
            cases Option.some.inj h
            exact absurd ht (List.not_mem_nil t)
    · have hb' : on_board ((current : Int) + dir) = false := by simpa using hb
      simp only [hb', Bool.not_false, if_true] at h
      cases Option.some.inj h
      exact absurd ht (List.not_mem_nil t)

/-! ## Geometry of the rays -/

theorem rook_step_geom_up : StepGeom (rook_stop (-8)) (-8) 0 (-1) := by
  intro cur mid _ _ he _
  unfold file rank
  omega

theorem rook_step_geom_down : StepGeom (rook_stop 8) 8 0 1 := by
  intro cur mid _ _ he _
  unfold file rank
  omega

theorem rook_step_geom_left : StepGeom (rook_stop (-1)) (-1) (-1) 0 := by
  intro cur mid _ _ he hs
  simp only [rook_stop, tdiv_cast, beq_self_eq_true, Bool.true_or, Bool.true_and,
    bne_eq_false_iff_eq] at hs
  unfold file
  unfold rank at hs ⊢
  omega

theorem rook_step_geom_right : StepGeom (rook_stop 1) 1 1 0 := by
  intro cur mid _ _ he hs
  simp only [rook_stop, tdiv_cast, beq_self_eq_true, Bool.or_true, Bool.true_and,
    bne_eq_false_iff_eq] at hs
  unfold file
  unfold rank at hs ⊢
  omega

theorem bishop_step_geom_nw : StepGeom bishop_stop (-9) (-1) (-1) := by
  intro cur mid _ _ he hs
  simp only [bishop_stop, tmod_cast, bne_eq_false_iff_eq] at hs
  unfold rank
  unfold file at hs ⊢
  omega

theorem bishop_step_geom_ne : StepGeom bishop_stop (-7) 1 (-1) := by
  intro cur mid _ _ he hs
  simp only [bishop_stop, tmod_cast, bne_eq_false_iff_eq] at hs
  unfold rank
  unfold file at hs ⊢
  omega

theorem bishop_step_geom_sw : StepGeom bishop_stop 7 (-1) 1 := by
  intro cur mid _ _ he hs
  simp only [bishop_stop, tmod_cast, bne_eq_false_iff_eq] at hs
  unfold rank
  unfold file at hs ⊢
  omega

theorem bishop_step_geom_se : StepGeom bishop_stop 9 1 1 := by
  intro cur mid _ _ he hs
  simp only [bishop_stop, tmod_cast, bne_eq_false_iff_eq] at hs
  unfold rank
  unfold file at hs ⊢
  omega

theorem square_eq_of_file_rank (s t : Nat) (hf : (file s : Int) = file t)
    (hr : (rank s : Int) = rank t) : s = t := by
  unfold file at hf
  unfold rank at hr
  omega

/-- A square reached along a ray lies `n ≥ 1` steps away in file and rank, and
the squares `1 .. n - 1` steps away are empty. -/
theorem ray_geometry (stop : Int → Nat → Bool) (b : Board) (dir df dr : Int)
    (hg : StepGeom stop dir df dr) (cur t : Nat) (h : Ray stop b dir cur t) :
    ∃ n : Nat, 1 ≤ n ∧ (file t : Int) = file cur + n * df ∧ (rank t : Int) = rank cur + n * dr
      ∧ ∀ k : Nat, 1 ≤ k → k < n → ∀ s : Nat,
          (file s : Int) = file cur + k * df → (rank s : Int) = rank cur + k * dr →
          rd b s = 46 := by
  induction h with
  | one hc ht he hs =>
    obtain ⟨hf, hr⟩ := hg _ _ hc ht he hs
    refine ⟨1, Nat.le_refl 1, by simpa using hf, by simpa using hr, ?_⟩
    intro k hk1 hk2
    omega
  | @more c m t' hc hm he hs hemp _ ih =>
    obtain ⟨hf, hr⟩ := hg _ _ hc hm he hs
    obtain ⟨n, hn, hft, hrt, hbetween⟩ := ih
    refine ⟨n + 1, by omega, ?_, ?_, ?_⟩
    · rw [hft, hf]; push_cast; ring
    · rw [hrt, hr]; push_cast; ring
    · intro k hk1 hk2 s hsf hsr
      obtain ⟨k', rfl⟩ : ∃ k', k = k' + 1 := ⟨k - 1, by omega⟩
      by_cases hk0 : k' = 0
      · subst hk0
        have hsm : s = m := square_eq_of_file_rank s m (by rw [hsf, hf]; push_cast; ring)
          (by rw [hsr, hr]; push_cast; ring)
        rw [hsm]
        exact hemp
      · apply hbetween k' (by omega) (by omega) s
        · rw [hsf, hf]; push_cast; ring
        · rw [hsr, hr]; push_cast; ring

/-- A ray along a rank or a file gives a rook move. -/
theorem line_of_geometry (b : Board) (idx t : Nat) (df dr : Int)
    (hd : (df = 0 ∧ (dr = 1 ∨ dr = -1)) ∨ (dr = 0 ∧ (df = 1 ∨ df = -1)))
    (hgeo : ∃ n : Nat, 1 ≤ n ∧ (file t : Int) = file idx + n * df
      ∧ (rank t : Int) = rank idx + n * dr
      ∧ ∀ k : Nat, 1 ≤ k → k < n → ∀ s : Nat,
          (file s : Int) = file idx + k * df → (rank s : Int) = rank idx + k * dr →
          rd b s = 46) :
    t ≠ idx ∧ RookShape b idx t := by
  obtain ⟨n, hn, hf, hr, hbetween⟩ := hgeo
  refine ⟨?_, ?_, ?_⟩
  · intro h
    subst h
    rcases hd with ⟨rfl, rfl | rfl⟩ | ⟨rfl, rfl | rfl⟩ <;> omega
  · rcases hd with ⟨rfl, rfl | rfl⟩ | ⟨rfl, rfl | rfl⟩ <;> omega
  · intro s hs
    unfold between_on_line strictly_between at hs
    apply hbetween (file_diff idx s + rank_diff idx s) _ _ s <;>
      unfold file_diff rank_diff <;>
      rcases hd with ⟨rfl, rfl | rfl⟩ | ⟨rfl, rfl | rfl⟩ <;> omega

/-- A ray along a diagonal gives a bishop move. -/
theorem diagonal_of_geometry (b : Board) (idx t : Nat) (df dr : Int)
    (hdf : df = 1 ∨ df = -1) (hdr : dr = 1 ∨ dr = -1)
    (hgeo : ∃ n : Nat, 1 ≤ n ∧ (file t : Int) = file idx + n * df
      ∧ (rank t : Int) = rank idx + n * dr
      ∧ ∀ k : Nat, 1 ≤ k → k < n → ∀ s : Nat,
          (file s : Int) = file idx + k * df → (rank s : Int) = rank idx + k * dr →
          rd b s = 46) :
    t ≠ idx ∧ BishopShape b idx t := by
  obtain ⟨n, hn, hf, hr, hbetween⟩ := hgeo
  refine ⟨?_, ?_, ?_, ?_⟩
  · intro h
    subst h
    rcases hdf with rfl | rfl <;> omega
  · unfold file_diff rank_diff
    rcases hdf with rfl | rfl <;> rcases hdr with rfl | rfl <;> omega
  · unfold file_diff
    rcases hdf with rfl | rfl <;> omega
  · intro s hs
    unfold between_on_diagonal strictly_between at hs
    obtain ⟨hsf, hsr, hsd⟩ := hs
    unfold file_diff rank_diff at hsd
    apply hbetween (file_diff idx s) _ _ s <;>
      unfold file_diff <;>
      rcases hdf with rfl | rfl <;> rcases hdr with rfl | rfl <;> omega

theorem rays_targets_mem (ray : Int → Option (List Nat)) (dirs : List Int) (l : List Nat)
    (h : rays_targets ray dirs = some l) (t : Nat) (ht : t ∈ l) :
    ∃ d ∈ dirs, ∃ l', ray d = some l' ∧ t ∈ l' := by
  induction dirs generalizing l with
  | nil =>
    cases Option.some.inj h
    exact absurd ht (List.not_mem_nil t)
  | cons d rest ih =>
    unfold rays_targets at h
    cases hd : ray d with
    | none => simp [hd] at h
    | some l₁ =>
      cases hr : rays_targets ray rest with
      | none => simp [hd, hr] at h
      | some l₂ =>
        simp only [hd, hr] at h
        cases Option.some.inj h
        rcases List.mem_append.mp ht with h₁ | h₂
        · exact ⟨d, List.mem_cons_self d rest, l₁, hd, h₁⟩
        · obtain ⟨d', hd', l', hl', ht'⟩ := ih l₂ hr h₂
          exact ⟨d', List.mem_cons_of_mem d hd', l', hl', ht'⟩

theorem ray_target_lt (stop : Int → Nat → Bool) (b : Board) (dir : Int) (cur t : Nat)
    (h : Ray stop b dir cur t) : t < 64 := by
  induction h with
  | one _ ht _ _ => exact ht
  | more _ _ _ _ _ _ ih => exact ih

/-- Every square pushed for a rook lies on the rook's rank or file with only empty
squares in between, and is empty or held by the other colour. -/
theorem rook_targets_spec (b : Board) (idx : Nat) (w : Bool) (l : List Nat) (h : idx < 64)
    (hl : rook_targets b idx w = some l) (t : Nat) (ht : t ∈ l) :
    t < 64 ∧ t ≠ idx ∧ RookShape b idx t ∧ (rd b t = 46 ∨ opposing w (rd b t) = true) := by
  obtain ⟨d, hd, l', hl', ht'⟩ := rays_targets_mem _ _ l hl t ht
  simp only [rook_directions, List.mem_cons, List.mem_singleton, List.not_mem_nil,
    or_false] at hd
  obtain ⟨hray, hocc⟩ :=
    ray_targets_spec (rook_stop d) b w d (by omega) (by omega) 64 idx l' h hl' t ht'
  have hlt : t < 64 := ray_target_lt _ _ _ _ _ hray
  have hshape : t ≠ idx ∧ RookShape b idx t := by
    rcases hd with rfl | rfl | rfl | rfl
    · exact line_of_geometry b idx t 0 (-1) (by simp)
        (ray_geometry _ b _ _ _ rook_step_geom_up idx t hray)
    · exact line_of_geometry b idx t 0 1 (by simp)
        (ray_geometry _ b _ _ _ rook_step_geom_down idx t hray)
    · exact line_of_geometry b idx t (-1) 0 (by simp)
        (ray_geometry _ b _ _ _ rook_step_geom_left idx t hray)
    · exact line_of_geometry b idx t 1 0 (by simp)
        (ray_geometry _ b _ _ _ rook_step_geom_right idx t hray)
  exact ⟨hlt, hshape.1, hshape.2, hocc⟩

/-- Every square pushed for a bishop lies on a diagonal of the bishop with only
empty squares in between, and is empty or held by the other colour. -/
theorem bishop_targets_spec (b : Board) (idx : Nat) (w : Bool) (l : List Nat) (h : idx < 64)
    (hl : bishop_targets b idx w = some l) (t : Nat) (ht : t ∈ l) :
    t < 64 ∧ t ≠ idx ∧ BishopShape b idx t ∧ (rd b t = 46 ∨ opposing w (rd b t) = true) := by
  obtain ⟨d, hd, l', hl', ht'⟩ := rays_targets_mem _ _ l hl t ht
  simp only [bishop_directions, List.mem_cons, List.mem_singleton, List.not_mem_nil,
    or_false] at hd
  obtain ⟨hray, hocc⟩ :=
    ray_targets_spec bishop_stop b w d (by omega) (by omega) 64 idx l' h hl' t ht'
  have hlt : t < 64 := ray_target_lt _ _ _ _ _ hray
  have hshape : t ≠ idx ∧ BishopShape b idx t := by
    rcases hd with rfl | rfl | rfl | rfl
    · exact diagonal_of_geometry b idx t (-1) (-1) (by simp) (by simp)
        (ray_geometry _ b _ _ _ bishop_step_geom_nw idx t hray)
    · exact diagonal_of_geometry b idx t 1 (-1) (by simp) (by simp)
        (ray_geometry _ b _ _ _ bishop_step_geom_ne idx t hray)
    · exact diagonal_of_geometry b idx t (-1) 1 (by simp) (by simp)
        (ray_geometry _ b _ _ _ bishop_step_geom_sw idx t hray)
    · exact diagonal_of_geometry b idx t 1 1 (by simp) (by simp)
        (ray_geometry _ b _ _ _ bishop_step_geom_se idx t hray)
  exact ⟨hlt, hshape.1, hshape.2, hocc⟩

/-! ## Soundness of the scan -/

theorem pawn_shape_ne (b : Board) (w : Bool) (f t : Nat) (h : PawnShape b w f t) : t ≠ f := by
  intro he
  subst he
  unfold PawnShape pawn_forward one_rank_forward at h
  cases w <;> simp at h

theorem pawn_shape_occ (b : Board) (w : Bool) (f t : Nat) (h : PawnShape b w f t) :
    rd b t = 46 ∨ opposing w (rd b t) = true := by
  rcases h with h | h
  · exact Or.inl h.2
  · exact Or.inr h.2.2.2

/-- Every square pushed for `idx` obeys `MoveSpec`. -/
theorem square_targets_spec (b : Board) (w : Bool) (idx : Nat) (lt : List Nat) (h : idx < 64)
    (hl : square_targets b w idx = some lt) (t : Nat) (ht : t ∈ lt) :
    MoveSpec b w idx t := by
  have hnil : ∀ {P : Prop}, some ([] : List Nat) = some lt → P := by
    intro P he
    cases Option.some.inj he
    exact absurd ht (List.not_mem_nil t)
  unfold square_targets at hl
  simp only [] at hl
  by_cases h1 : (rd b idx == 46) = true
  · rw [if_pos h1] at hl
    exact hnil hl
  rw [if_neg h1] at hl
  by_cases h2 : (w && !is_white_piece (rd b idx)) = true
  · rw [if_pos h2] at hl
    exact hnil hl
  rw [if_neg h2] at hl
  by_cases h3 : (!w && !is_black_piece (rd b idx)) = true
  · rw [if_pos h3] at hl
    exact hnil hl
  rw [if_neg h3] at hl
  have hne : rd b idx ≠ 46 := by simpa using h1
  have hown : own w (rd b idx) = true := by
    unfold own
    cases w <;> simp_all
  change (if (normalized w (rd b idx) == 80) = true then _ else
    if (normalized w (rd b idx) == 78) = true then _ else
    if (normalized w (rd b idx) == 66) = true then _ else
    if (normalized w (rd b idx) == 82) = true then _ else
    if (normalized w (rd b idx) == 75) = true then _ else _) = _ at hl
  by_cases hP : (normalized w (rd b idx) == 80) = true
  · rw [if_pos hP] at hl
    cases Option.some.inj hl
    obtain ⟨hlt, hsh⟩ := pawn_targets_spec b idx w t h ht
    exact ⟨h, hlt, pawn_shape_ne b w idx t hsh, hne, hown, pawn_shape_occ b w idx t hsh,
      Or.inl ⟨by simpa using hP, hsh⟩⟩
  rw [if_neg hP] at hl
  by_cases hN : (normalized w (rd b idx) == 78) = true
  · rw [if_pos hN] at hl
    cases Option.some.inj hl
    obtain ⟨hlt, hnef, hsh, hocc⟩ := knight_targets_spec b idx w t h ht
    exact ⟨h, hlt, hnef, hne, hown, hocc, Or.inr (Or.inl ⟨by simpa using hN, hsh⟩)⟩
  rw [if_neg hN] at hl
  by_cases hB : (normalized w (rd b idx) == 66) = true
  · rw [if_pos hB] at hl
    obtain ⟨hlt, hnef, hsh, hocc⟩ := bishop_targets_spec b idx w lt h hl t ht
    exact ⟨h, hlt, hnef, hne, hown, hocc, Or.inr (Or.inr (Or.inl ⟨by simpa using hB, hsh⟩))⟩
  rw [if_neg hB] at hl
  by_cases hR : (normalized w (rd b idx) == 82) = true
  · rw [if_pos hR] at hl
    obtain ⟨hlt, hnef, hsh, hocc⟩ := rook_targets_spec b idx w lt h hl t ht
    exact ⟨h, hlt, hnef, hne, hown, hocc,
      Or.inr (Or.inr (Or.inr (Or.inl ⟨by simpa using hR, hsh⟩)))⟩
  rw [if_neg hR] at hl
  by_cases hK : (normalized w (rd b idx) == 75) = true
  · rw [if_pos hK] at hl
    cases Option.some.inj hl
    obtain ⟨hlt, hnef, hf, hr, hocc⟩ := king_targets_spec b idx w t h ht
    exact ⟨h, hlt, hnef, hne, hown, hocc,
      Or.inr (Or.inr (Or.inr (Or.inr ⟨by simpa using hK, hf, hr⟩)))⟩
  rw [if_neg hK] at hl
  exact hnil hl

theorem scan_moves_mem (b : Board) (w : Bool) (sqs : List Nat) (l : List (Nat × Nat))
    (h : scan_moves b w sqs = some l) (p : Nat × Nat) (hp : p ∈ l) :
    p.1 ∈ sqs ∧ ∃ lt, square_targets b w p.1 = some lt ∧ p.2 ∈ lt := by
  induction sqs generalizing l with
  | nil =>
    cases Option.some.inj h
    exact absurd hp (List.not_mem_nil p)
  | cons s rest ih =>
    unfold scan_moves at h
    cases hs : square_targets b w s with
    | none => simp [hs] at h
    | some l₁ =>
      cases hr : scan_moves b w rest with
      | none => simp [hs, hr] at h
      | some l₂ =>
        simp only [hs, hr] at h
        cases Option.some.inj h
        rcases List.mem_append.mp hp with h₁ | h₂
        · obtain ⟨t, ht, rfl⟩ := List.mem_map.mp h₁
          exact ⟨List.mem_cons_self s rest, l₁, hs, ht⟩
        · obtain ⟨hm, hex⟩ := ih l₂ hr h₂
          exact ⟨List.mem_cons_of_mem s hm, hex⟩

/-- Every pair pushed by the scan obeys `MoveSpec`. -/
theorem all_moves_sound (b : Board) (w : Bool) (l : List (Nat × Nat))
    (h : all_moves b w = some l) (p : Nat × Nat) (hp : p ∈ l) : MoveSpec b w p.1 p.2 := by
  obtain ⟨hm, lt, hlt, ht⟩ := scan_moves_mem b w _ l h p hp
  exact square_targets_spec b w p.1 lt (List.mem_range.mp hm) hlt p.2 ht

/-- Soundness of `chess_generate_moves`: the call returns, leaves board and random
source untouched, and every entry of the buffer below the returned count
obeys `MoveSpec` on the board and records the occupant of its target. -/
theorem generate_sound (st : Engine) (w : Bool) :
    ∃ st', chess_generate_moves st w = some (st'.g_move_count, st')
      ∧ st'.g_board = st.g_board ∧ st'.rand_state = st.rand_state
      ∧ ∀ i, i < st'.g_move_count →
          MoveSpec st.g_board w (st'.g_moves i).from_ (st'.g_moves i).to_
          ∧ (st'.g_moves i).captured = rd st.g_board (st'.g_moves i).to_ := by
  obtain ⟨l, st', hl, hgen, hb, hr, hbuf⟩ := chess_generate_moves_total st w
  refine ⟨st', hgen, hb, hr, ?_⟩
  intro i hi
  have hmem := mem_buffer_of_lt st' i hi
  rw [hbuf] at hmem
  obtain ⟨p, hp, hpe⟩ := List.mem_map.mp hmem
  have hsound := all_moves_sound st.g_board w l hl p (List.mem_of_mem_take hp)
  rw [← hpe]
  exact ⟨hsound, rfl⟩

/-- On the diagonal from square 27 to square 63, square 36 lies strictly between. -/
theorem between_on_diagonal_example : between_on_diagonal 27 36 63 := by
  unfold between_on_diagonal strictly_between file_diff rank_diff file rank
  decide

/-- On the rank from square 56 to square 60, square 58 lies strictly between. -/
theorem between_on_line_example : between_on_line 56 58 60 := by
  unfold between_on_line strictly_between file rank
  decide

/-! ## Colours and letters -/

theorem own_empty (w : Bool) : own w 46 = false := by
  cases w <;> rfl

theorem own_of_opposing (w : Bool) (p : Nat) (h : opposing w p = true) : own w p = false := by
  unfold opposing is_black_piece is_white_piece at h
  unfold own is_black_piece is_white_piece
  cases w <;> simp at h ⊢ <;> omega

theorem own_of_free (w : Bool) (p : Nat) (h : p = 46 ∨ opposing w p = true) :
    own w p = false := by
  rcases h with rfl | h
  · exact own_empty w
  · exact own_of_opposing w p h

theorem normalized_piece_of (w : Bool) (letter : Nat) :
    normalized w (piece_of w letter) = letter := by
  unfold normalized piece_of
  cases w <;> simp

theorem piece_of_normalized (w : Bool) (p : Nat) (h : own w p = true) :
    piece_of w (normalized w p) = p := by
  unfold own is_black_piece is_white_piece at h
  unfold normalized piece_of
  cases w <;> simp at h ⊢
  omega

/-! ## The claims -/

/-- C1, amended.  After `chess_reset`, from any prior state, `chess_generate_moves`
returns exactly 12 for White and exactly 12 for Black (each called on the
freshly reset board): 8 pawn single-steps plus 4 knight moves per side. -/
theorem C1_start_position_moves (st : Engine) :
    (∃ sw, chess_generate_moves (chess_reset st) true = some (12, sw)
      ∧ ((buffer sw).filter (fun m =>
            rd sw.g_board m.from_ == 80 && decide (m.to_ + 8 = m.from_))).length = 8
      ∧ ((buffer sw).filter (fun m => rd sw.g_board m.from_ == 78)).length = 4)
    ∧ (∃ sb, chess_generate_moves (chess_reset st) false = some (12, sb)
      ∧ ((buffer sb).filter (fun m =>
            rd sb.g_board m.from_ == 112 && decide (m.to_ = m.from_ + 8))).length = 8
      ∧ ((buffer sb).filter (fun m => rd sb.g_board m.from_ == 110)).length = 4) := by
  have hboard : (chess_reset st).g_board = start_board := rfl
  have hw : all_moves (chess_reset st).g_board true
      = some [(48, 40), (49, 41), (50, 42), (51, 43), (52, 44), (53, 45), (54, 46), (55, 47),
          (57, 40), (57, 42), (62, 45), (62, 47)] := by
    rw [hboard]
    decide
  have hb : all_moves (chess_reset st).g_board false
      = some [(1, 18), (1, 16), (6, 23), (6, 21), (8, 16), (9, 17), (10, 18), (11, 19),
          (12, 20), (13, 21), (14, 22), (15, 23)] := by
    rw [hboard]
    decide
  constructor
  · obtain ⟨sw, hgen, hbd, _, hbuf⟩ := chess_generate_moves_of_all_moves _ true _ hw
    have hc : sw.g_move_count = 12 := by
      rw [← buffer_length, hbuf]
      rfl
    refine ⟨sw, by rw [hgen, hc], ?_, ?_⟩ <;>
    · rw [hbuf, hbd, hboard]
      decide
  · obtain ⟨sb, hgen, hbd, _, hbuf⟩ := chess_generate_moves_of_all_moves _ false _ hb
    have hc : sb.g_move_count = 12 := by
      rw [← buffer_length, hbuf]
      rfl
    refine ⟨sb, by rw [hgen, hc], ?_, ?_⟩ <;>
    · rw [hbuf, hbd, hboard]
      decide

/-- C1, counterexample.  On the board reset from the blank state the count returned
for White is not 20, and neither is the count returned for Black. -/
theorem C1_counterexample :
    (chess_generate_moves (chess_reset blank_engine) true).map Prod.fst ≠ some 20
    ∧ (chess_generate_moves (chess_reset blank_engine) false).map Prod.fst ≠ some 20 := by
  decide

theorem rd_wr_same (b : Board) (i v : Nat) (h : i < 64) : rd (wr b i v) i = v := by
  simp [rd, wr, h]

theorem rd_wr_other (b : Board) (i j v : Nat) (h : j ≠ i) : rd (wr b i v) j = rd b j := by
  unfold rd wr
  split
  · simp [h]
  · rfl

theorem chess_apply_move_range (st : Engine) (from_ to_ : Nat) (h : from_ ≥ 64 ∨ to_ ≥ 64) :
    chess_apply_move st from_ to_ = (-1, st) := by
  have hr : (decide (from_ ≥ 64) || decide (to_ ≥ 64)) = true := by simpa using h
  unfold chess_apply_move
  rw [if_pos hr]

theorem chess_apply_move_empty (st : Engine) (from_ to_ : Nat) (hf : from_ < 64)
    (ht : to_ < 64) (he : rd st.g_board from_ = 46) :
    chess_apply_move st from_ to_ = (-2, st) := by
  have hr : ¬ ((decide (from_ ≥ 64) || decide (to_ ≥ 64)) = true) := by
    simp only [Bool.or_eq_true, decide_eq_true_eq]
    omega
  have he' : (rd st.g_board from_ == 46) = true := by simpa using he
  unfold chess_apply_move
  rw [if_neg hr]
  simp only [he', if_true]

theorem chess_apply_move_ok (st : Engine) (from_ to_ : Nat) (hf : from_ < 64)
    (ht : to_ < 64) (he : rd st.g_board from_ ≠ 46) :
    chess_apply_move st from_ to_
      = (0, { st with g_board := wr (wr st.g_board to_ (rd st.g_board from_)) from_ 46 }) := by
  have hr : ¬ ((decide (from_ ≥ 64) || decide (to_ ≥ 64)) = true) := by
    simp only [Bool.or_eq_true, decide_eq_true_eq]
    omega
  have he' : ¬ ((rd st.g_board from_ == 46) = true) := by simpa using he
  unfold chess_apply_move
  rw [if_neg hr]
  exact if_neg he'

/-- C2, amended.  For every board and every `from`, `to` in `[0,64)` such
that `board[from]` is not Empty, `chess_apply_move(from, to)` returns 0 and
afterwards `board[from]` is Empty and, when `to` differs from `from`, `board[to]`
holds the piece that was at `from` before the call, regardless of what previously
occupied `to`. -/
theorem C2_apply_move_moves_piece (st : Engine) (from_ to_ : Nat)
    (hf : from_ < 64) (ht : to_ < 64) (hocc : rd st.g_board from_ ≠ 46) :
    (chess_apply_move st from_ to_).1 = 0
    ∧ rd (chess_apply_move st from_ to_).2.g_board from_ = 46
    ∧ (to_ ≠ from_ →
        rd (chess_apply_move st from_ to_).2.g_board to_ = rd st.g_board from_) := by
  rw [chess_apply_move_ok st from_ to_ hf ht hocc]
  refine ⟨rfl, rd_wr_same _ _ _ hf, ?_⟩
  intro hne
  show rd (wr (wr st.g_board to_ (rd st.g_board from_)) from_ 46) to_ = rd st.g_board from_
  rw [rd_wr_other _ _ _ _ hne, rd_wr_same _ _ _ ht]

/-- C2, witness: the king's pawn of the start position moved from square 52 to
square 36. -/
theorem C2_apply_move_witness :
    52 < 64 ∧ 36 < 64 ∧ rd (chess_reset blank_engine).g_board 52 ≠ 46
    ∧ ((chess_apply_move (chess_reset blank_engine) 52 36).1 = 0
      ∧ rd (chess_apply_move (chess_reset blank_engine) 52 36).2.g_board 52 = 46
      ∧ (36 ≠ 52 →
          rd (chess_apply_move (chess_reset blank_engine) 52 36).2.g_board 36
            = rd (chess_reset blank_engine).g_board 52)) :=
  ⟨by decide, by decide, by decide,
    C2_apply_move_moves_piece (chess_reset blank_engine) 52 36 (by decide) (by decide)
      (by decide)⟩

/-- C2, counterexample.  On the start position, `from = to = 0` is in range and
square 0 is occupied, the call returns 0, yet afterwards `board[to]` does not
hold the piece that was at `from`: the square is Empty. -/
theorem C2_counterexample :
    0 < 64 ∧ rd (chess_reset blank_engine).g_board 0 ≠ 46
    ∧ (chess_apply_move (chess_reset blank_engine) 0 0).1 = 0
    ∧ rd (chess_apply_move (chess_reset blank_engine) 0 0).2.g_board 0
        ≠ rd (chess_reset blank_engine).g_board 0 := by
  decide

/-- C3.  For every board and every `from`, `to`: `chess_apply_move` returns -1
if and only if `from >= 64` or `to >= 64`; it returns -2 if and only if both
are below 64 and `board[from]` is Empty; otherwise it returns 0.  In both error
cases the board is unchanged. -/
theorem C3_apply_move_errors (st : Engine) (from_ to_ : Nat) :
    ((chess_apply_move st from_ to_).1 = -1 ↔ (from_ ≥ 64 ∨ to_ ≥ 64))
    ∧ ((chess_apply_move st from_ to_).1 = -2
        ↔ (from_ < 64 ∧ to_ < 64 ∧ rd st.g_board from_ = 46))
    ∧ ((chess_apply_move st from_ to_).1 = 0
        ↔ (from_ < 64 ∧ to_ < 64 ∧ rd st.g_board from_ ≠ 46))
    ∧ ((chess_apply_move st from_ to_).1 = -1 ∨ (chess_apply_move st from_ to_).1 = -2 →
        (chess_apply_move st from_ to_).2.g_board = st.g_board) := by
  by_cases hr : from_ ≥ 64 ∨ to_ ≥ 64
  · rw [chess_apply_move_range st from_ to_ hr]
    refine ⟨⟨fun _ => hr, fun _ => rfl⟩, ⟨fun h => absurd h (by simp), fun h => ?_⟩,
      ⟨fun h => absurd h (by simp), fun h => ?_⟩, fun _ => rfl⟩ <;> omega
  · have hf : from_ < 64 := by omega
    have ht : to_ < 64 := by omega
    by_cases he : rd st.g_board from_ = 46
    · rw [chess_apply_move_empty st from_ to_ hf ht he]
      exact ⟨⟨fun h => absurd h (by simp), fun h => absurd h hr⟩,
        ⟨fun _ => ⟨hf, ht, he⟩, fun _ => rfl⟩,
        ⟨fun h => absurd h (by simp), fun h => absurd he h.2.2⟩, fun _ => rfl⟩
    · rw [chess_apply_move_ok st from_ to_ hf ht he]
      exact ⟨⟨fun h => absurd h (by simp), fun h => absurd h hr⟩,
        ⟨fun h => absurd h (by simp), fun h => absurd h.2.2 he⟩,
        ⟨fun _ => ⟨hf, ht, he⟩, fun _ => rfl⟩,
        fun h => h.elim (fun h => absurd h (by simp)) (fun h => absurd h (by simp))⟩

/-- C4.  For every board and every side, `chess_generate_moves` returns, and no
move of the buffer it produces has a `to` square occupied by a piece of the
side's own colour (uppercase letter for White, lowercase for Black). -/
theorem C4_no_own_colour_target (st : Engine) (w : Bool) :
    ∃ n st', chess_generate_moves st w = some (n, st')
      ∧ ∀ i, i < n → own w (rd st'.g_board (st'.g_moves i).to_) = false := by
  obtain ⟨st', hgen, hb, _, hall⟩ := generate_sound st w
  refine ⟨st'.g_move_count, st', hgen, ?_⟩
  intro i hi
  obtain ⟨⟨_, _, _, _, _, hocc, _⟩, _⟩ := hall i hi
  rw [hb]
  exact own_of_free w _ hocc

/-- C5.  For every board and side, every generated move whose from-square holds
a rook of that side has its to-square on the same rank or the same file as
`from`, with every square strictly between them Empty; every generated move
whose from-square holds a bishop of that side has equal, non-zero file and
rank distances, with every square strictly between them on that diagonal
Empty. -/
theorem C5_slider_moves_unobstructed (st : Engine) (w : Bool) :
    ∃ n st', chess_generate_moves st w = some (n, st')
      ∧ ∀ i, i < n →
        (rd st.g_board (st'.g_moves i).from_ = piece_of w 82 →
          (st'.g_moves i).to_ ≠ (st'.g_moves i).from_
          ∧ (rank (st'.g_moves i).to_ = rank (st'.g_moves i).from_
              ∨ file (st'.g_moves i).to_ = file (st'.g_moves i).from_)
          ∧ ∀ s, between_on_line (st'.g_moves i).from_ s (st'.g_moves i).to_ →
              rd st.g_board s = 46)
        ∧ (rd st.g_board (st'.g_moves i).from_ = piece_of w 66 →
          file_diff (st'.g_moves i).from_ (st'.g_moves i).to_
              = rank_diff (st'.g_moves i).from_ (st'.g_moves i).to_
          ∧ 0 < file_diff (st'.g_moves i).from_ (st'.g_moves i).to_
          ∧ ∀ s, between_on_diagonal (st'.g_moves i).from_ s (st'.g_moves i).to_ →
              rd st.g_board s = 46) := by
  obtain ⟨st', hgen, _, _, hall⟩ := generate_sound st w
  refine ⟨st'.g_move_count, st', hgen, ?_⟩
  intro i hi
  obtain ⟨⟨_, _, hne, _, _, _, hshape⟩, _⟩ := hall i hi
  constructor
  · intro hp
    have hn : normalized w (rd st.g_board (st'.g_moves i).from_) = 82 := by
      rw [hp, normalized_piece_of]
    rw [hn] at hshape
    rcases hshape with ⟨h, _⟩ | ⟨h, _⟩ | ⟨h, _⟩ | ⟨_, hs⟩ | ⟨h, _⟩
    · exact absurd h (by decide)
    · exact absurd h (by decide)
    · exact absurd h (by decide)
    · exact ⟨hne, hs.1, hs.2⟩
    · exact absurd h (by decide)
  · intro hp
    have hn : normalized w (rd st.g_board (st'.g_moves i).from_) = 66 := by
      rw [hp, normalized_piece_of]
    rw [hn] at hshape
    rcases hshape with ⟨h, _⟩ | ⟨h, _⟩ | ⟨_, hs⟩ | ⟨h, _⟩ | ⟨h, _⟩
    · exact absurd h (by decide)
    · exact absurd h (by decide)
    · exact hs
    · exact absurd h (by decide)
    · exact absurd h (by decide)

/-- C6.  For every board and side, every generated move whose from-square holds
a knight of that side has file and rank distances (1,2) or (2,1), and every
generated move whose from-square holds a king of that side has file and rank
distances at most 1 and a to-square different from `from`; in particular a
knight on file 0 never gets a target on file 6 or 7. -/
theorem C6_knight_king_displacement (st : Engine) (w : Bool) :
    ∃ n st', chess_generate_moves st w = some (n, st')
      ∧ ∀ i, i < n →
        (rd st.g_board (st'.g_moves i).from_ = piece_of w 78 →
          ((file_diff (st'.g_moves i).from_ (st'.g_moves i).to_ = 1
              ∧ rank_diff (st'.g_moves i).from_ (st'.g_moves i).to_ = 2)
            ∨ (file_diff (st'.g_moves i).from_ (st'.g_moves i).to_ = 2
              ∧ rank_diff (st'.g_moves i).from_ (st'.g_moves i).to_ = 1))
          ∧ (file (st'.g_moves i).from_ = 0 →
              file (st'.g_moves i).to_ ≠ 6 ∧ file (st'.g_moves i).to_ ≠ 7))
        ∧ (rd st.g_board (st'.g_moves i).from_ = piece_of w 75 →
          file_diff (st'.g_moves i).from_ (st'.g_moves i).to_ ≤ 1
          ∧ rank_diff (st'.g_moves i).from_ (st'.g_moves i).to_ ≤ 1
          ∧ (st'.g_moves i).to_ ≠ (st'.g_moves i).from_) := by
  obtain ⟨st', hgen, _, _, hall⟩ := generate_sound st w
  refine ⟨st'.g_move_count, st', hgen, ?_⟩
  intro i hi
  obtain ⟨⟨_, _, hne, _, _, _, hshape⟩, _⟩ := hall i hi
  constructor
  · intro hp
    have hn : normalized w (rd st.g_board (st'.g_moves i).from_) = 78 := by
      rw [hp, normalized_piece_of]
    rw [hn] at hshape
    rcases hshape with ⟨h, _⟩ | ⟨_, hs⟩ | ⟨h, _⟩ | ⟨h, _⟩ | ⟨h, _⟩
    · exact absurd h (by decide)
    · refine ⟨hs, ?_⟩
      intro hf0
      unfold KnightShape file_diff at hs
      omega
    · exact absurd h (by decide)
    · exact absurd h (by decide)
    · exact absurd h (by decide)
  · intro hp
    have hn : normalized w (rd st.g_board (st'.g_moves i).from_) = 75 := by
      rw [hp, normalized_piece_of]
    rw [hn] at hshape
    rcases hshape with ⟨h, _⟩ | ⟨h, _⟩ | ⟨h, _⟩ | ⟨h, _⟩ | ⟨_, hs⟩
    · exact absurd h (by decide)
    · exact absurd h (by decide)
    · exact absurd h (by decide)
    · exact absurd h (by decide)
    · exact ⟨hs.1, hs.2, hne⟩

/-- C7.  For every board and side, every generated move whose from-square `s`
holds a pawn of that side is either (a) the single forward step (`to = s - 8`
for White, `to = s + 8` for Black) onto an Empty square, or (b) a capture whose
to-square is exactly one rank forward of `s`, exactly one file aside, and
occupied by a piece of the other colour.  No other pawn move is generated, and a
pawn on its farthest rank (rank 0 for White, rank 7 for Black) generates no
move. -/
theorem C7_pawn_moves (st : Engine) (w : Bool) :
    ∃ n st', chess_generate_moves st w = some (n, st')
      ∧ (∀ i, i < n → rd st.g_board (st'.g_moves i).from_ = piece_of w 80 →
          (pawn_forward w (st'.g_moves i).from_ (st'.g_moves i).to_
            ∧ rd st.g_board (st'.g_moves i).to_ = 46)
          ∨ (one_rank_forward w (st'.g_moves i).from_ (st'.g_moves i).to_
            ∧ file_diff (st'.g_moves i).from_ (st'.g_moves i).to_ = 1
            ∧ rd st.g_board (st'.g_moves i).to_ ≠ 46
            ∧ opposing w (rd st.g_board (st'.g_moves i).to_) = true))
      ∧ (∀ s, rd st.g_board s = piece_of w 80 → rank s = (if w then 0 else 7) →
          ∀ i, i < n → (st'.g_moves i).from_ ≠ s) := by
  obtain ⟨st', hgen, _, _, hall⟩ := generate_sound st w
  have hpawn : ∀ i, i < st'.g_move_count →
      rd st.g_board (st'.g_moves i).from_ = piece_of w 80 →
      PawnShape st.g_board w (st'.g_moves i).from_ (st'.g_moves i).to_ := by
    intro i hi hp
    obtain ⟨⟨_, _, _, _, _, _, hshape⟩, _⟩ := hall i hi
    have hn : normalized w (rd st.g_board (st'.g_moves i).from_) = 80 := by
      rw [hp, normalized_piece_of]
    rw [hn] at hshape
    rcases hshape with ⟨_, hs⟩ | ⟨h, _⟩ | ⟨h, _⟩ | ⟨h, _⟩ | ⟨h, _⟩
    · exact hs
    · exact absurd h (by decide)
    · exact absurd h (by decide)
    · exact absurd h (by decide)
    · exact absurd h (by decide)
  refine ⟨st'.g_move_count, st', hgen, hpawn, ?_⟩
  intro s hs hrank i hi hfrom
  have hsh := hpawn i hi (by rw [hfrom]; exact hs)
  obtain ⟨⟨_, hto, _⟩, _⟩ := hall i hi
  rw [hfrom] at hsh
  unfold PawnShape pawn_forward one_rank_forward at hsh
  unfold rank at hsh hrank
  cases w
  · simp only [Bool.false_eq_true, if_false] at hsh hrank
    omega
  · simp only [if_true] at hsh hrank
    omega

/-- C8.  For every board and side, no move produced by `chess_generate_moves` has a
from-square holding that side's queen (`'Q'` for White, `'q'` for Black); in
particular, on any board where every piece of the side to move is a queen,
`chess_generate_moves` returns 0. -/
theorem C8_queen_generates_nothing (st : Engine) (w : Bool) :
    ∃ n st', chess_generate_moves st w = some (n, st')
      ∧ (∀ i, i < n → rd st.g_board (st'.g_moves i).from_ ≠ piece_of w 81)
      ∧ ((∀ s, s < 64 → own w (rd st.g_board s) = true → rd st.g_board s = piece_of w 81) →
          n = 0) := by
  obtain ⟨st', hgen, _, _, hall⟩ := generate_sound st w
  have hq : ∀ i, i < st'.g_move_count →
      rd st.g_board (st'.g_moves i).from_ ≠ piece_of w 81 := by
    intro i hi hp
    obtain ⟨⟨_, _, _, _, _, _, hshape⟩, _⟩ := hall i hi
    have hn : normalized w (rd st.g_board (st'.g_moves i).from_) = 81 := by
      rw [hp, normalized_piece_of]
    rw [hn] at hshape
    rcases hshape with ⟨h, _⟩ | ⟨h, _⟩ | ⟨h, _⟩ | ⟨h, _⟩ | ⟨h, _⟩ <;>
      exact absurd h (by decide)
  refine ⟨st'.g_move_count, st', hgen, hq, ?_⟩
  intro hqueens
  by_contra hn0
  have h0 : 0 < st'.g_move_count := Nat.pos_of_ne_zero hn0
  obtain ⟨⟨hf, _, _, _, hown, _, _⟩, _⟩ := hall 0 h0
  exact hq 0 h0 (hqueens _ hf hown)

/-- C9.  After `chess_reset`, from any prior state, the board is exactly: squares
0..7 = "rnbqkbnr", squares 8..15 = 'p', squares 16..47 = Empty, squares
48..55 = 'P', squares 56..63 = "RNBQKBNR", and the logical length of the move
buffer is 0. -/
theorem C9_reset_board (st : Engine) :
    (∀ i, i < 8 → rd (chess_reset st).g_board i
        = (("rnbqkbnr".toList.map Char.toNat).getD i 0))
    ∧ (∀ i, i < 8 → rd (chess_reset st).g_board (8 + i) = 112)
    ∧ (∀ i, i < 32 → rd (chess_reset st).g_board (16 + i) = 46)
    ∧ (∀ i, i < 8 → rd (chess_reset st).g_board (48 + i) = 80)
    ∧ (∀ i, i < 8 → rd (chess_reset st).g_board (56 + i)
        = (("RNBQKBNR".toList.map Char.toNat).getD i 0))
    ∧ (chess_reset st).g_move_count = 0 := by
  have hboard : (chess_reset st).g_board = start_board := rfl
  rw [hboard]
  refine ⟨by decide, by decide, by decide, by decide, by decide, rfl⟩

/-- C10.  For every board and side such that `chess_generate_moves` yields 0
moves, `chess_random_ai` returns 0, leaves all 64 squares of the board unchanged
and consumes no pseudo-random draw. -/
theorem C10_random_ai_no_moves (rand : Nat → Nat × Nat) (st : Engine) (w : Bool)
    (h : (chess_generate_moves st w).map Prod.fst = some 0) :
    ∃ st', chess_random_ai rand st w = some (0, st')
      ∧ st'.g_board = st.g_board ∧ st'.rand_state = st.rand_state := by
  obtain ⟨st', hgen, hb, hr, _⟩ := generate_sound st w
  rw [hgen] at h
  have hc : st'.g_move_count = 0 := Option.some.inj h
  refine ⟨st', ?_, hb, hr⟩
  unfold chess_random_ai
  rw [hgen, hc]
  rfl

/-- C10, witness: White to move on a board whose only pieces are two white queens
and the black king. -/
theorem C10_random_ai_no_moves_witness :
    (chess_generate_moves queens_engine true).map Prod.fst = some 0
    ∧ ∃ st', chess_random_ai example_rand queens_engine true = some (0, st')
      ∧ st'.g_board = queens_engine.g_board ∧ st'.rand_state = queens_engine.rand_state :=
  ⟨by decide, C10_random_ai_no_moves example_rand queens_engine true (by decide)⟩

/-! ## Facts on the move applier and the random selector -/

theorem chess_apply_move_board (st : Engine) (from_ to_ : Nat) :
    (chess_apply_move st from_ to_).2.g_board = apply_board st.g_board from_ to_ := by
  unfold apply_board
  by_cases hr : from_ ≥ 64 ∨ to_ ≥ 64
  · rw [chess_apply_move_range st from_ to_ hr, if_pos hr]
  · have hf : from_ < 64 := by omega
    have ht : to_ < 64 := by omega
    rw [if_neg hr]
    by_cases he : rd st.g_board from_ = 46
    · rw [chess_apply_move_empty st from_ to_ hf ht he, if_pos he]
    · rw [chess_apply_move_ok st from_ to_ hf ht he, if_neg he]

theorem chess_apply_move_rand (st : Engine) (from_ to_ : Nat) :
    (chess_apply_move st from_ to_).2.rand_state = st.rand_state := by
  by_cases hr : from_ ≥ 64 ∨ to_ ≥ 64
  · rw [chess_apply_move_range st from_ to_ hr]
  · have hf : from_ < 64 := by omega
    have ht : to_ < 64 := by omega
    by_cases he : rd st.g_board from_ = 46
    · rw [chess_apply_move_empty st from_ to_ hf ht he]
    · rw [chess_apply_move_ok st from_ to_ hf ht he]

theorem chess_apply_move_moves (st : Engine) (from_ to_ : Nat) :
    (chess_apply_move st from_ to_).2.g_moves = st.g_moves
    ∧ (chess_apply_move st from_ to_).2.g_move_count = st.g_move_count := by
  by_cases hr : from_ ≥ 64 ∨ to_ ≥ 64
  · rw [chess_apply_move_range st from_ to_ hr]
    exact ⟨rfl, rfl⟩
  · have hf : from_ < 64 := by omega
    have ht : to_ < 64 := by omega
    by_cases he : rd st.g_board from_ = 46
    · rw [chess_apply_move_empty st from_ to_ hf ht he]
      exact ⟨rfl, rfl⟩
    · rw [chess_apply_move_ok st from_ to_ hf ht he]
      exact ⟨rfl, rfl⟩

/-- The result of `chess_random_ai` when the generator yields no move. -/
theorem chess_random_ai_zero (rand : Nat → Nat × Nat) (st st1 : Engine) (w : Bool)
    (hgen : chess_generate_moves st w = some (0, st1)) :
    chess_random_ai rand st w = some (0, st1) := by
  unfold chess_random_ai
  rw [hgen]
  rfl

/-- The result of `chess_random_ai` when the generator yields `n > 0` moves:
one draw, then the move at index `draw mod n` applied. -/
theorem chess_random_ai_pos (rand : Nat → Nat × Nat) (st st1 : Engine) (w : Bool) (n : Nat)
    (hn : n ≠ 0) (hgen : chess_generate_moves st w = some (n, st1)) :
    chess_random_ai rand st w
      = some (n, (chess_apply_move { st1 with rand_state := (rand st1.rand_state).2 }
          (st1.g_moves ((rand st1.rand_state).1 % n)).from_
          (st1.g_moves ((rand st1.rand_state).1 % n)).to_).2) := by
  have hn' : ¬ ((n == 0) = true) := by simpa using hn
  unfold chess_random_ai
  rw [hgen]
  exact if_neg hn'

/-- C11.  For every board, side and draw `r` of the pseudo-random source: if
`chess_generate_moves` yields `n > 0` moves, then `chess_random_ai` returns `n`,
the chosen index `r mod n` lies in `[0, n)`, and the resulting board equals the
input board after `chess_apply_move(m.from, m.to)` where `m` is the buffer entry
at index `r mod n`. -/
theorem C11_random_ai_applies_chosen (rand : Nat → Nat × Nat) (st : Engine) (w : Bool)
    (n : Nat) (hn : 0 < n) (hgen : (chess_generate_moves st w).map Prod.fst = some n) :
    ∃ st1 st2, chess_generate_moves st w = some (n, st1)
      ∧ chess_random_ai rand st w = some (n, st2)
      ∧ (rand st.rand_state).1 % n < n
      ∧ st2.g_board
          = (chess_apply_move st (st1.g_moves ((rand st.rand_state).1 % n)).from_
              (st1.g_moves ((rand st.rand_state).1 % n)).to_).2.g_board := by
  obtain ⟨st1, hg, hb, hr, _⟩ := generate_sound st w
  rw [hg] at hgen
  have hc : st1.g_move_count = n := Option.some.inj hgen
  rw [hc] at hg
  refine ⟨st1, _, hg, chess_random_ai_pos rand st st1 w n (by omega) hg,
    Nat.mod_lt _ hn, ?_⟩
  rw [chess_apply_move_board, chess_apply_move_board, hr]
  show apply_board st1.g_board _ _ = _
  rw [hb]

/-- C11, witness: White to move on the start position, 12 moves. -/
theorem C11_random_ai_applies_chosen_witness :
    0 < 12 ∧ (chess_generate_moves (chess_reset blank_engine) true).map Prod.fst = some 12
    ∧ ∃ st1 st2, chess_generate_moves (chess_reset blank_engine) true = some (12, st1)
      ∧ chess_random_ai example_rand (chess_reset blank_engine) true = some (12, st2)
      ∧ (example_rand (chess_reset blank_engine).rand_state).1 % 12 < 12
      ∧ st2.g_board
          = (chess_apply_move (chess_reset blank_engine)
              (st1.g_moves ((example_rand (chess_reset blank_engine).rand_state).1 % 12)).from_
              (st1.g_moves ((example_rand (chess_reset blank_engine).rand_state).1 % 12)).to_
            ).2.g_board :=
  ⟨by decide, by decide,
    C11_random_ai_applies_chosen example_rand (chess_reset blank_engine) true 12 (by decide)
      (by decide)⟩

/-- C13.  For every board and side, after `chess_generate_moves` returning `n`,
every buffer entry `m` at index `i < n` is a well-formed snapshot: `m.from < 64`,
`m.to < 64`, `m.from != m.to`, `board[m.from]` is a piece of the side's colour,
and `m.captured` equals `board[m.to]`.  Consequently `chess_apply_move(m.from,
m.to)` returns 0 for every generated move. -/
theorem C13_buffer_entries_well_formed (st : Engine) (w : Bool) :
    ∃ n st', chess_generate_moves st w = some (n, st')
      ∧ ∀ i, i < n →
        (st'.g_moves i).from_ < 64 ∧ (st'.g_moves i).to_ < 64
        ∧ (st'.g_moves i).from_ ≠ (st'.g_moves i).to_
        ∧ own w (rd st.g_board (st'.g_moves i).from_) = true
        ∧ (st'.g_moves i).captured = rd st.g_board (st'.g_moves i).to_
        ∧ (chess_apply_move st' (st'.g_moves i).from_ (st'.g_moves i).to_).1 = 0 := by
  obtain ⟨st', hgen, hb, _, hall⟩ := generate_sound st w
  refine ⟨st'.g_move_count, st', hgen, ?_⟩
  intro i hi
  obtain ⟨⟨hf, ht, hne, hocc, hown, _, _⟩, hcap⟩ := hall i hi
  refine ⟨hf, ht, fun h => hne h.symm, hown, hcap, ?_⟩
  rw [chess_apply_move_ok st' _ _ hf ht (by rw [hb]; exact hocc)]

theorem g_moves_eq_of_buffer_eq (s s' : Engine) (h : buffer s = buffer s') :
    s.g_move_count = s'.g_move_count
    ∧ ∀ i, i < s.g_move_count → s.g_moves i = s'.g_moves i := by
  have hc : s.g_move_count = s'.g_move_count := by
    rw [← buffer_length s, ← buffer_length s', h]
  refine ⟨hc, ?_⟩
  intro i hi
  have hi' : i < s'.g_move_count := hc ▸ hi
  have hget := congrArg (fun l : List ChessMove => l[i]?) h
  simpa [buffer, List.getElem?_map, List.getElem?_range hi, List.getElem?_range hi'] using hget

/-- C14.  For every board, every side and every prior buffer state,
`chess_generate_moves` returns a count that is at most 256 and equals the
logical length of the buffer after the call; a `push_move` attempted when the
length is already 256 changes neither the buffer contents nor the length.  The
returned count and the entries below it do not depend on the contents or the
length of the buffer before the call. -/
theorem C14_count_bounded_buffer_independent (st : Engine) (w : Bool)
    (prior_moves : Nat → ChessMove) (prior_count : Nat) (f t : Nat) :
    ∃ n s s', chess_generate_moves st w = some (n, s)
      ∧ chess_generate_moves
          { st with g_moves := prior_moves, g_move_count := prior_count } w = some (n, s')
      ∧ n ≤ MOVE_BUFFER_SIZE ∧ s.g_move_count = n ∧ s'.g_move_count = n
      ∧ (∀ i, i < n → s'.g_moves i = s.g_moves i)
      ∧ s'.g_board = s.g_board
      ∧ push_move { st with g_move_count := MOVE_BUFFER_SIZE } f t
          = { st with g_move_count := MOVE_BUFFER_SIZE } := by
  obtain ⟨l, hl⟩ := all_moves_some st.g_board w
  obtain ⟨s, hgen, hb, _, hbuf⟩ := chess_generate_moves_of_all_moves st w l hl
  obtain ⟨s', hgen', hb', _, hbuf'⟩ := chess_generate_moves_of_all_moves
    { st with g_moves := prior_moves, g_move_count := prior_count } w l hl
  have hbb : buffer s' = buffer s := by rw [hbuf, hbuf']
  obtain ⟨hc, hent⟩ := g_moves_eq_of_buffer_eq s' s hbb
  have hle : s.g_move_count ≤ MOVE_BUFFER_SIZE := by
    rw [← buffer_length, hbuf, List.length_map, List.length_take]
    exact Nat.min_le_left _ _
  refine ⟨s.g_move_count, s, s', hgen, by rw [hgen', hc], hle, rfl, hc, ?_, ?_, ?_⟩
  · intro i hi
    exact hent i (by rw [hc]; exact hi)
  · rw [hb, hb']
  · exact push_move_full _ f t (Nat.le_refl _)

/-- C18.  For every board and every `from`, `to`, `chess_apply_move(from, to)`
leaves every square other than `from` and `to` unchanged, on success as in the
error cases; hence it never changes more than two squares. -/
theorem C18_apply_move_frame (st : Engine) (from_ to_ : Nat) :
    (∀ s, s ≠ from_ → s ≠ to_ →
        rd (chess_apply_move st from_ to_).2.g_board s = rd st.g_board s)
    ∧ ((Finset.range 64).filter (fun s =>
          rd (chess_apply_move st from_ to_).2.g_board s ≠ rd st.g_board s)).card ≤ 2 := by
  have hframe : ∀ s, s ≠ from_ → s ≠ to_ →
      rd (chess_apply_move st from_ to_).2.g_board s = rd st.g_board s := by
    intro s hf ht
    rw [chess_apply_move_board]
    unfold apply_board
    split
    · rfl
    split
    · rfl
    · rw [rd_wr_other _ _ _ _ hf, rd_wr_other _ _ _ _ ht]
  refine ⟨hframe, ?_⟩
  have hsub : (Finset.range 64).filter (fun s =>
      rd (chess_apply_move st from_ to_).2.g_board s ≠ rd st.g_board s)
      ⊆ ({from_, to_} : Finset Nat) := by
    intro s hs
    have hne := (Finset.mem_filter.mp hs).2
    by_contra hnot
    simp only [Finset.mem_insert, Finset.mem_singleton, not_or] at hnot
    exact hne (hframe s hnot.1 hnot.2)
  exact (Finset.card_le_card hsub).trans Finset.card_le_two

/-- The function `chess_random_ai` reads the engine only through the board and
the state of the pseudo-random source: two engines that agree on both get the
same count and agree on both afterwards. -/
theorem chess_random_ai_congr (rand : Nat → Nat × Nat) (s₁ s₂ : Engine) (w : Bool)
    (hb : s₁.g_board = s₂.g_board) (hr : s₁.rand_state = s₂.rand_state) :
    ∃ n t₁ t₂, chess_random_ai rand s₁ w = some (n, t₁)
      ∧ chess_random_ai rand s₂ w = some (n, t₂)
      ∧ t₁.g_board = t₂.g_board ∧ t₁.rand_state = t₂.rand_state := by
  obtain ⟨l, hl⟩ := all_moves_some s₁.g_board w
  obtain ⟨u₁, hg₁, hb₁, hr₁, hbuf₁⟩ := chess_generate_moves_of_all_moves s₁ w l hl
  obtain ⟨u₂, hg₂, hb₂, hr₂, hbuf₂⟩ := chess_generate_moves_of_all_moves s₂ w l (hb ▸ hl)
  have hbb : buffer u₁ = buffer u₂ := by rw [hbuf₁, hbuf₂, hb]
  obtain ⟨hc, hent⟩ := g_moves_eq_of_buffer_eq u₁ u₂ hbb
  have hub : u₁.g_board = u₂.g_board := by rw [hb₁, hb₂, hb]
  have hur : u₁.rand_state = u₂.rand_state := by rw [hr₁, hr₂, hr]
  rw [← hc] at hg₂
  by_cases hn : u₁.g_move_count = 0
  · rw [hn] at hg₁ hg₂
    exact ⟨0, u₁, u₂, chess_random_ai_zero rand s₁ u₁ w hg₁,
      chess_random_ai_zero rand s₂ u₂ w hg₂, hub, hur⟩
  · refine ⟨u₁.g_move_count, _, _, chess_random_ai_pos rand s₁ u₁ w _ hn hg₁,
      chess_random_ai_pos rand s₂ u₂ w _ hn hg₂, ?_, ?_⟩
    · rw [chess_apply_move_board, chess_apply_move_board, ← hur,
        ← hent _ (Nat.mod_lt _ (Nat.pos_of_ne_zero hn))]
      show apply_board u₁.g_board _ _ = apply_board u₂.g_board _ _
      rw [hub]
    · rw [chess_apply_move_rand, chess_apply_move_rand]
      show (rand u₁.rand_state).2 = (rand u₂.rand_state).2
      rw [hur]

theorem run_random_ai_congr (rand : Nat → Nat × Nat) (sides : List Bool) :
    ∀ s₁ s₂ : Engine, s₁.g_board = s₂.g_board → s₁.rand_state = s₂.rand_state →
      ∃ tr, run_random_ai rand s₁ sides = some tr ∧ run_random_ai rand s₂ sides = some tr
        ∧ tr.length = sides.length := by
  induction sides with
  | nil =>
    intro s₁ s₂ _ _
    exact ⟨[], rfl, rfl, rfl⟩
  | cons w rest ih =>
    intro s₁ s₂ hb hr
    obtain ⟨n, t₁, t₂, h₁, h₂, hb', hr'⟩ := chess_random_ai_congr rand s₁ s₂ w hb hr
    obtain ⟨tr, htr₁, htr₂, hlen⟩ := ih t₁ t₂ hb' hr'
    refine ⟨(n, t₁.g_board) :: tr, ?_, ?_, by simp [hlen]⟩
    · unfold run_random_ai
      rw [h₁]
      simp only [htr₁, Option.map_some']
    · unfold run_random_ai
      rw [h₂]
      simp only [htr₂, Option.map_some', hb']

/-- C12.  With the pseudo-random source a deterministic function of its state:
for any two prior engine states (board, move buffer and its length, state of
the random source) and any finite sequence of sides, calling `chess_reset` and
then `chess_random_ai` on that sequence produces, in both runs, the same count
at every step and the same board after every step. -/
theorem C12_reset_makes_runs_identical (rand : Nat → Nat × Nat) (s₁ s₂ : Engine)
    (sides : List Bool) :
    ∃ tr, run_random_ai rand (chess_reset s₁) sides = some tr
      ∧ run_random_ai rand (chess_reset s₂) sides = some tr
      ∧ tr.length = sides.length :=
  run_random_ai_congr rand sides (chess_reset s₁) (chess_reset s₂) rfl rfl

/-! ## Counting pieces -/

theorem countP_wr (p : Nat → Bool) (b : Board) (i v : Nat) (hi : i < 64) (n : Nat) :
    (List.range n).countP (fun s => p (rd (wr b i v) s))
        + (if i < n ∧ p (rd b i) = true then 1 else 0)
      = (List.range n).countP (fun s => p (rd b s))
        + (if i < n ∧ p v = true then 1 else 0) := by
  induction n with
  | zero => simp
  | succ n ih =>
    rw [List.range_succ, List.countP_append, List.countP_append]
    simp only [List.countP_cons, List.countP_nil, Nat.zero_add]
    by_cases hin : i = n
    · subst hin
      rw [rd_wr_same b i v hi]
      have h1 : ¬ (i < i ∧ p (rd b i) = true) := fun h => Nat.lt_irrefl _ h.1
      have h2 : ¬ (i < i ∧ p v = true) := fun h => Nat.lt_irrefl _ h.1
      rw [if_neg h1, if_neg h2] at ih
      cases hA : p (rd b i) <;> cases hB : p v <;> simp <;> omega
    · rw [rd_wr_other b i n v (fun h => hin h.symm)]
      have e1 : (i < n + 1 ∧ p (rd b i) = true) ↔ (i < n ∧ p (rd b i) = true) := by
        constructor
        · intro h; exact ⟨by omega, h.2⟩
        · intro h; exact ⟨by omega, h.2⟩
      have e2 : (i < n + 1 ∧ p v = true) ↔ (i < n ∧ p v = true) := by
        constructor
        · intro h; exact ⟨by omega, h.2⟩
        · intro h; exact ⟨by omega, h.2⟩
      simp only [e1, e2]
      omega

/-- Writing one square changes the count of a colour by what the square loses
and gains. -/
theorem count_colour_wr (b : Board) (c : Bool) (i v : Nat) (hi : i < 64) :
    count_colour (wr b i v) c + (if own c (rd b i) = true then 1 else 0)
      = count_colour b c + (if own c v = true then 1 else 0) := by
  have h := countP_wr (own c) b i v hi 64
  simpa [count_colour, hi] using h

theorem own_not_eq_opposing (w : Bool) (p : Nat) : own (!w) p = opposing w p := by
  unfold own opposing
  cases w <;> simp

theorem own_not_of_own (w : Bool) (p : Nat) (h : own w p = true) : own (!w) p = false := by
  unfold own is_white_piece is_black_piece at *
  cases w <;> simp at h ⊢ <;> omega

theorem opposing_ne_empty (w : Bool) (p : Nat) (h : opposing w p = true) : p ≠ 46 := by
  intro hp
  subst hp
  cases w <;> simp [opposing, is_white_piece, is_black_piece] at h

/-- The counts of both colours after a move of an own piece from `f` onto a
different square `t` that is empty or held by the other colour. -/
theorem count_colour_apply (b : Board) (w : Bool) (f t : Nat) (hf : f < 64) (ht : t < 64)
    (hne : t ≠ f) (hown : own w (rd b f) = true)
    (hfree : rd b t = 46 ∨ opposing w (rd b t) = true) :
    count_colour (wr (wr b t (rd b f)) f 46) w = count_colour b w
    ∧ (rd b t = 46 →
        count_colour (wr (wr b t (rd b f)) f 46) (!w) = count_colour b (!w))
    ∧ (rd b t ≠ 46 →
        count_colour (wr (wr b t (rd b f)) f 46) (!w) + 1 = count_colour b (!w)) := by
  have hrf : rd (wr b t (rd b f)) f = rd b f := rd_wr_other b t f _ (fun h => hne h.symm)
  have a1 := count_colour_wr (wr b t (rd b f)) w f 46 hf
  have a2 := count_colour_wr b w t (rd b f) ht
  have b1 := count_colour_wr (wr b t (rd b f)) (!w) f 46 hf
  have b2 := count_colour_wr b (!w) t (rd b f) ht
  rw [hrf] at a1 b1
  have hot : own w (rd b t) = false := own_of_free w _ hfree
  have hnf : own (!w) (rd b f) = false := own_not_of_own w _ hown
  rw [hown, own_empty] at a1
  rw [hot, hown] at a2
  rw [hnf, own_empty] at b1
  rw [hnf] at b2
  simp only [if_true, Bool.false_eq_true, if_false] at a1 a2 b1 b2
  refine ⟨by omega, ?_, ?_⟩
  · intro he
    rw [he, own_empty] at b2
    simp only [Bool.false_eq_true, if_false] at b2
    omega
  · intro he
    have hop : opposing w (rd b t) = true := hfree.resolve_left he
    rw [own_not_eq_opposing, hop] at b2
    simp only [if_true] at b2
    omega

/-- C19.  Material invariant of `chess_random_ai`: for every board, side and
pseudo-random source, after `chess_random_ai` the number of squares holding a
piece of the side's colour is unchanged, and the number of squares holding a
piece of the opposite colour is unchanged or decreases by exactly one; when a
move is made it decreases by one exactly when the `captured` field of the chosen
move is not Empty, and when no move is made it is unchanged. -/
theorem C19_random_ai_material (rand : Nat → Nat × Nat) (st : Engine) (w : Bool) :
    ∃ n st', chess_random_ai rand st w = some (n, st')
      ∧ count_colour st'.g_board w = count_colour st.g_board w
      ∧ (count_colour st'.g_board (!w) = count_colour st.g_board (!w)
          ∨ count_colour st'.g_board (!w) + 1 = count_colour st.g_board (!w))
      ∧ (0 < n →
          (count_colour st'.g_board (!w) + 1 = count_colour st.g_board (!w)
            ↔ (st'.g_moves ((rand st.rand_state).1 % n)).captured ≠ 46))
      ∧ (n = 0 → count_colour st'.g_board (!w) = count_colour st.g_board (!w)) := by
  obtain ⟨st1, hgen, hb, hr, hall⟩ := generate_sound st w
  by_cases hn : st1.g_move_count = 0
  · rw [hn] at hgen
    refine ⟨0, st1, chess_random_ai_zero rand st st1 w hgen, by rw [hb],
      Or.inl (by rw [hb]), fun h => absurd h (Nat.lt_irrefl 0), fun _ => by rw [hb]⟩
  · have hpos : 0 < st1.g_move_count := Nat.pos_of_ne_zero hn
    have hlt := Nat.mod_lt (rand st1.rand_state).1 hpos
    obtain ⟨⟨hf, ht, hne, hocc, hown, hfree, _⟩, hcap⟩ := hall _ hlt
    refine ⟨st1.g_move_count, _, chess_random_ai_pos rand st st1 w _ hn hgen, ?_⟩
    have hboard : (chess_apply_move { st1 with rand_state := (rand st1.rand_state).2 }
          (st1.g_moves ((rand st1.rand_state).1 % st1.g_move_count)).from_
          (st1.g_moves ((rand st1.rand_state).1 % st1.g_move_count)).to_).2.g_board
        = wr (wr st.g_board (st1.g_moves ((rand st1.rand_state).1 % st1.g_move_count)).to_
            (rd st.g_board (st1.g_moves ((rand st1.rand_state).1 % st1.g_move_count)).from_))
            (st1.g_moves ((rand st1.rand_state).1 % st1.g_move_count)).from_ 46 := by
      rw [chess_apply_move_board]
      show apply_board st1.g_board _ _ = _
      rw [hb]
      unfold apply_board
      rw [if_neg (by omega), if_neg hocc]
    have hmoves := (chess_apply_move_moves { st1 with rand_state := (rand st1.rand_state).2 }
          (st1.g_moves ((rand st1.rand_state).1 % st1.g_move_count)).from_
          (st1.g_moves ((rand st1.rand_state).1 % st1.g_move_count)).to_).1
    obtain ⟨hsame, hempty, hcapt⟩ := count_colour_apply st.g_board w _ _ hf ht hne hown hfree
    rw [hboard, hmoves]
    show _ ∧ _ ∧ (_ → (_ ↔ (st1.g_moves ((rand st.rand_state).1 % st1.g_move_count)).captured
      ≠ 46)) ∧ _
    rw [← hr, hcap]
    refine ⟨hsame, ?_, fun _ => ?_, fun h => absurd h hn⟩
    · by_cases he : rd st.g_board
          (st1.g_moves ((rand st1.rand_state).1 % st1.g_move_count)).to_ = 46
      · exact Or.inl (hempty he)
      · exact Or.inr (hcapt he)
    · constructor
      · intro hdec he
        have := hempty he
        omega
      · intro he
        exact hcapt he

/-! ## Order of the generated moves -/

/-- The dispatch of `chess_generate_moves` for a square holding the piece of
the side to move with uppercase letter `letter`. -/
theorem square_targets_of_piece (b : Board) (w : Bool) (s letter : Nat)
    (h₁ : 65 ≤ letter) (h₂ : letter ≤ 90) (hp : rd b s = piece_of w letter) :
    square_targets b w s
      = if (letter == 80) = true then some (pawn_targets b s w)
        else if (letter == 78) = true then some (knight_targets b s w)
        else if (letter == 66) = true then bishop_targets b s w
        else if (letter == 82) = true then rook_targets b s w
        else if (letter == 75) = true then some (king_targets b s w)
        else some [] := by
  have hn : (if w = true then piece_of w letter else piece_of w letter - (97 - 65)) = letter :=
    normalized_piece_of w letter
  have c1 : ¬ ((piece_of w letter == 46) = true) := by
    unfold piece_of
    cases w <;> simp <;> omega
  have c2 : ¬ ((w && !is_white_piece (piece_of w letter)) = true) := by
    unfold piece_of is_white_piece
    cases w <;> simp
    omega
  have c3 : ¬ ((!w && !is_black_piece (piece_of w letter)) = true) := by
    unfold piece_of is_black_piece
    cases w <;> simp
    omega
  unfold square_targets
  simp only [hp]
  rw [if_neg c1, if_neg c2, if_neg c3, hn]

theorem piece_of_injective (w : Bool) (x y : Nat) (h : piece_of w x = piece_of w y) : x = y := by
  unfold piece_of at h
  cases w <;> simp at h <;> exact h

/-- The scan keeps any relation that holds between the moves of one square in
the order they are pushed and between moves of a lower and a higher square. -/
theorem scan_moves_pairwise (R : Nat × Nat → Nat × Nat → Prop) (b : Board) (w : Bool)
    (hcross : ∀ s s' t t', s < s' → R (s, t) (s', t')) (sqs : List Nat) :
    ∀ l, sqs.Pairwise (fun x y => x < y) →
      (∀ s ∈ sqs, ∀ lt, square_targets b w s = some lt →
        lt.Pairwise (fun t t' => R (s, t) (s, t'))) →
      scan_moves b w sqs = some l → l.Pairwise R := by
  induction sqs with
  | nil =>
    intro l _ _ h
    cases Option.some.inj h
    exact List.Pairwise.nil
  | cons s rest ih =>
    intro l hsorted hblock h
    have hsq := List.pairwise_cons.mp hsorted
    unfold scan_moves at h
    cases hs : square_targets b w s with
    | none => simp [hs] at h
    | some l₁ =>
      cases hr : scan_moves b w rest with
      | none => simp [hs, hr] at h
      | some l₂ =>
        simp only [hs, hr] at h
        cases Option.some.inj h
        refine List.pairwise_append.mpr ⟨?_, ?_, ?_⟩
        · exact List.pairwise_map.mpr (hblock s (List.mem_cons_self s rest) l₁ hs)
        · exact ih l₂ hsq.2 (fun s' hs' => hblock s' (List.mem_cons_of_mem s hs')) hr
        · intro p hp q hq
          obtain ⟨t, _, rfl⟩ := List.mem_map.mp hp
          obtain ⟨hm, _⟩ := scan_moves_mem b w rest l₂ hr q hq
          exact hcross s q.1 t q.2 (hsq.1 q.1 hm)

theorem buffer_getElem (st : Engine) (i : Nat) (h : i < (buffer st).length) :
    (buffer st)[i] = st.g_moves i := by
  simp [buffer]

/-- A relation holding pairwise, in order, between the pairs pushed by the scan
holds between any two entries of the buffer in index order. -/
theorem generate_pairwise (R : Nat × Nat → Nat × Nat → Prop) (st : Engine) (w : Bool)
    (hR : ∀ l, all_moves st.g_board w = some l → l.Pairwise R) :
    ∃ st', chess_generate_moves st w = some (st'.g_move_count, st')
      ∧ ∀ i j, i < j → j < st'.g_move_count →
          R ((st'.g_moves i).from_, (st'.g_moves i).to_)
            ((st'.g_moves j).from_, (st'.g_moves j).to_) := by
  obtain ⟨l, st', hl, hgen, _, _, hbuf⟩ := chess_generate_moves_total st w
  refine ⟨st', hgen, ?_⟩
  have hp : (buffer st').Pairwise (fun m m' => R (m.from_, m.to_) (m'.from_, m'.to_)) := by
    rw [hbuf]
    exact List.pairwise_map.mpr ((hR l hl).sublist (List.take_sublist _ _))
  intro i j hij hj
  have hj' : j < (buffer st').length := by rw [buffer_length]; exact hj
  have hi' : i < (buffer st').length := Nat.lt_trans hij hj'
  have := List.pairwise_iff_getElem.mp hp i j hi' hj' hij
  rwa [buffer_getElem, buffer_getElem] at this

theorem earlier_in_self (l : List Int) : l.Pairwise (earlier_in l) := by
  apply List.pairwise_iff_getElem.mpr
  intro i j hi hj hij
  exact ⟨i, j, hij, List.getElem?_eq_getElem hi, List.getElem?_eq_getElem hj⟩

/-- The squares pushed for a knight come in the order of the table `jumps`. -/
theorem knight_targets_order (b : Board) (s : Nat) (w : Bool) (h : s < 64) :
    (knight_targets b s w).Pairwise
      (fun (t t' : Nat) => earlier_in knight_jumps ((t : Int) - s) ((t' : Int) - s)) := by
  refine List.Pairwise.filterMap (knight_target b s w) ?_ (earlier_in_self knight_jumps)
  intro j j' hjj t ht t' ht'
  obtain ⟨a, c, hac, ha, hc⟩ := hjj
  obtain ⟨_, h₁, h₂⟩ := knight_jumps_small j (List.getElem?_mem ha)
  obtain ⟨_, h₁', h₂'⟩ := knight_jumps_small j' (List.getElem?_mem hc)
  have e := (knight_target_spec b s w j t h h₁ h₂ ht).1
  have e' := (knight_target_spec b s w j' t' h h₁' h₂' ht').1
  have ej : (t : Int) - s = j := by omega
  have ej' : (t' : Int) - s = j' := by omega
  rw [ej, ej']
  exact ⟨a, c, hac, ha, hc⟩

/-- The squares pushed for a king come in the order of the table `deltas`. -/
theorem king_targets_order (b : Board) (s : Nat) (w : Bool) (h : s < 64) :
    (king_targets b s w).Pairwise
      (fun (t t' : Nat) => earlier_in king_deltas ((t : Int) - s) ((t' : Int) - s)) := by
  refine List.Pairwise.filterMap (king_target b s w) ?_ (earlier_in_self king_deltas)
  intro j j' hjj t ht t' ht'
  obtain ⟨a, c, hac, ha, hc⟩ := hjj
  obtain ⟨_, h₁, h₂⟩ := king_deltas_small j (List.getElem?_mem ha)
  obtain ⟨_, h₁', h₂'⟩ := king_deltas_small j' (List.getElem?_mem hc)
  have e := (king_target_spec b s w j t h h₁ h₂ ht).1
  have e' := (king_target_spec b s w j' t' h h₁' h₂' ht').1
  have ej : (t : Int) - s = j := by omega
  have ej' : (t' : Int) - s = j' := by omega
  rw [ej, ej']
  exact ⟨a, c, hac, ha, hc⟩

theorem square_targets_knight (b : Board) (w : Bool) (s : Nat)
    (hp : rd b s = piece_of w 78) : square_targets b w s = some (knight_targets b s w) := by
  rw [square_targets_of_piece b w s 78 (by decide) (by decide) hp]
  rfl

theorem square_targets_king (b : Board) (w : Bool) (s : Nat)
    (hp : rd b s = piece_of w 75) : square_targets b w s = some (king_targets b s w) := by
  rw [square_targets_of_piece b w s 75 (by decide) (by decide) hp]
  rfl

theorem square_targets_rook (b : Board) (w : Bool) (s : Nat)
    (hp : rd b s = piece_of w 82) : square_targets b w s = rook_targets b s w := by
  rw [square_targets_of_piece b w s 82 (by decide) (by decide) hp]
  rfl

theorem square_targets_bishop (b : Board) (w : Bool) (s : Nat)
    (hp : rd b s = piece_of w 66) : square_targets b w s = bishop_targets b s w := by
  rw [square_targets_of_piece b w s 66 (by decide) (by decide) hp]
  rfl

/-- C15.  For every board and side, the moves in the buffer after
`chess_generate_moves` are in square-scan order: for all indices `i < j < count`,
`buffer[i].from <= buffer[j].from`; the moves of a single knight appear in the
order of the table 17, 15, 10, 6, -17, -15, -10, -6, and those of a single king
in the order of the table -9, -8, -7, -1, 1, 7, 8, 9. -/
theorem C15_scan_and_table_order (st : Engine) (w : Bool) :
    ∃ n st', chess_generate_moves st w = some (n, st')
      ∧ (∀ i j, i < j → j < n → (st'.g_moves i).from_ ≤ (st'.g_moves j).from_)
      ∧ (∀ i j, i < j → j < n → (st'.g_moves i).from_ = (st'.g_moves j).from_ →
          rd st.g_board (st'.g_moves i).from_ = piece_of w 78 →
          earlier_in [17, 15, 10, 6, -17, -15, -10, -6]
            (((st'.g_moves i).to_ : Int) - (st'.g_moves i).from_)
            (((st'.g_moves j).to_ : Int) - (st'.g_moves j).from_))
      ∧ (∀ i j, i < j → j < n → (st'.g_moves i).from_ = (st'.g_moves j).from_ →
          rd st.g_board (st'.g_moves i).from_ = piece_of w 75 →
          earlier_in [-9, -8, -7, -1, 1, 7, 8, 9]
            (((st'.g_moves i).to_ : Int) - (st'.g_moves i).from_)
            (((st'.g_moves j).to_ : Int) - (st'.g_moves j).from_)) := by
  obtain ⟨st', hgen, hpair⟩ := generate_pairwise
    (fun p q => p.1 ≤ q.1 ∧ (p.1 = q.1 →
      (rd st.g_board p.1 = piece_of w 78 →
        earlier_in knight_jumps ((p.2 : Int) - p.1) ((q.2 : Int) - q.1))
      ∧ (rd st.g_board p.1 = piece_of w 75 →
        earlier_in king_deltas ((p.2 : Int) - p.1) ((q.2 : Int) - q.1)))) st w (by
    intro l hl
    refine scan_moves_pairwise _ st.g_board w ?_ _ l (List.pairwise_lt_range 64) ?_ hl
    · intro s s' t t' hss
      exact ⟨Nat.le_of_lt hss, fun h => absurd h (Nat.ne_of_lt hss)⟩
    · intro s hs lt hlt
      have hs64 : s < 64 := List.mem_range.mp hs
      by_cases hk : rd st.g_board s = piece_of w 78
      · rw [square_targets_knight st.g_board w s hk] at hlt
        cases Option.some.inj hlt
        refine (knight_targets_order st.g_board s w hs64).imp ?_
        intro t t' h
        refine ⟨Nat.le_refl s, fun _ => ⟨fun _ => h, fun hking => ?_⟩⟩
        exact absurd (piece_of_injective w _ _ (hk.symm.trans hking)) (by decide)
      · by_cases hg : rd st.g_board s = piece_of w 75
        · rw [square_targets_king st.g_board w s hg] at hlt
          cases Option.some.inj hlt
          refine (king_targets_order st.g_board s w hs64).imp ?_
          intro t t' h
          exact ⟨Nat.le_refl s, fun _ => ⟨fun hkn => absurd hkn hk, fun _ => h⟩⟩
        · exact List.pairwise_of_forall (fun t t' =>
            ⟨Nat.le_refl s, fun _ => ⟨fun hkn => absurd hkn hk, fun hkg => absurd hkg hg⟩⟩))
  refine ⟨st'.g_move_count, st', hgen, ?_, ?_, ?_⟩
  · intro i j hij hj
    exact (hpair i j hij hj).1
  · intro i j hij hj hfrom hk
    exact ((hpair i j hij hj).2 hfrom).1 hk
  · intro i j hij hj hfrom hk
    exact ((hpair i j hij hj).2 hfrom).2 hk

/-! ## Completeness of the scan -/

theorem lt_of_rd_ne_zero (b : Board) (s : Nat) (h : rd b s ≠ 0) : s < 64 := by
  by_contra hs
  apply h
  unfold rd
  rw [dif_neg hs]

theorem lt_of_rd_piece (b : Board) (w : Bool) (s letter : Nat) (hl : 65 ≤ letter)
    (h : rd b s = piece_of w letter) : s < 64 := by
  apply lt_of_rd_ne_zero b s
  rw [h]
  unfold piece_of
  split <;> omega

theorem to_uint8_cast (t : Nat) (h : t < 64) : to_uint8 (t : Int) = t := by
  rw [to_uint8_of_small _ (by omega) (by omega)]
  exact Int.toNat_natCast t

/-- Every free square an L-shaped jump away from a knight is pushed. -/
theorem knight_targets_complete (b : Board) (s : Nat) (w : Bool) (t : Nat)
    (hs : s < 64) (ht : t < 64) (hL : KnightShape s t)
    (hfree : rd b t = 46 ∨ opposing w (rd b t) = true) :
    t ∈ knight_targets b s w := by
  have hj : ((t : Int) - s) ∈ knight_jumps := by
    unfold KnightShape file_diff rank_diff file rank at hL
    simp only [knight_jumps, List.mem_cons, List.mem_singleton, List.not_mem_nil, or_false]
    omega
  have htgt : knight_target b s w ((t : Int) - s) = some t := by
    have hx : (s : Int) + ((t : Int) - s) = t := by omega
    have hb : on_board (t : Int) = true := (on_board_iff _).mpr ⟨by omega, by omega⟩
    have hocc : (rd b t == 46 || opposing w (rd b t)) = true := by
      rcases hfree with h | h
      · simp [h]
      · simp [h]
    have hshape : ((file_diff s t == 1 && rank_diff s t == 2)
        || (file_diff s t == 2 && rank_diff s t == 1)) = true := by
      unfold KnightShape at hL
      rcases hL with ⟨h1, h2⟩ | ⟨h1, h2⟩ <;> simp [h1, h2]
    unfold knight_target
    simp only [to_int8_step s ((t : Int) - s) hs (by omega) (by omega), hx, tmod_cast, tdiv_cast,
      Int.toNat_natCast, to_uint8_cast t ht]
    unfold file_diff rank_diff at hshape
    rw [hb, hshape, hocc]
    rfl
  exact List.mem_filterMap.mpr ⟨_, hj, htgt⟩

theorem scan_moves_mem_of (b : Board) (w : Bool) (sqs : List Nat) (s t : Nat) (lt : List Nat)
    (hs : s ∈ sqs) (hlt : square_targets b w s = some lt) (ht : t ∈ lt) :
    ∀ l, scan_moves b w sqs = some l → (s, t) ∈ l := by
  induction sqs with
  | nil => exact absurd hs (List.not_mem_nil s)
  | cons x rest ih =>
    intro l h
    unfold scan_moves at h
    cases hx : square_targets b w x with
    | none => simp [hx] at h
    | some l₁ =>
      cases hr : scan_moves b w rest with
      | none => simp [hx, hr] at h
      | some l₂ =>
        simp only [hx, hr] at h
        cases Option.some.inj h
        rcases List.mem_cons.mp hs with rfl | hs'
        · rw [hx] at hlt
          cases Option.some.inj hlt
          exact List.mem_append_left _ (List.mem_map.mpr ⟨t, ht, rfl⟩)
        · exact List.mem_append_right _ (ih hs' l₂ hr)

/-- Without truncation every pair pushed by the scan is an entry of the buffer. -/
theorem generate_complete (st : Engine) (w : Bool) (n : Nat) (st' : Engine)
    (hgen : chess_generate_moves st w = some (n, st')) (hn : n < 256)
    (s t : Nat) (lt : List Nat) (hs : s < 64)
    (hlt : square_targets st.g_board w s = some lt) (ht : t ∈ lt) :
    ∃ i, i < n ∧ (st'.g_moves i).from_ = s ∧ (st'.g_moves i).to_ = t := by
  obtain ⟨l, hl⟩ := all_moves_some st.g_board w
  obtain ⟨u, hgen', _, _, hbuf⟩ := chess_generate_moves_of_all_moves st w l hl
  rw [hgen] at hgen'
  have hpair := Option.some.inj hgen'
  have hst : st' = u := congrArg Prod.snd hpair
  have hcount : n = u.g_move_count := congrArg Prod.fst hpair
  subst hst
  have hlen : (l.take MOVE_BUFFER_SIZE).length = n := by
    rw [hcount, ← buffer_length, hbuf, List.length_map]
  have htake : l.take MOVE_BUFFER_SIZE = l := by
    apply List.take_of_length_le
    rw [List.length_take] at hlen
    have h256 : MOVE_BUFFER_SIZE = 256 := rfl
    omega
  have hmem : (s, t) ∈ l := scan_moves_mem_of st.g_board w _ s t lt
    (List.mem_range.mpr hs) hlt ht l hl
  have hin : mk_move st.g_board (s, t) ∈ buffer st' := by
    rw [hbuf, htake]
    exact List.mem_map.mpr ⟨_, hmem, rfl⟩
  obtain ⟨i, hi, he⟩ := List.mem_iff_getElem.mp hin
  rw [buffer_getElem] at he
  refine ⟨i, by rw [hcount, ← buffer_length]; exact hi, ?_, ?_⟩
  · rw [he]; rfl
  · rw [he]; rfl

/-- The state returned by `chess_generate_moves` is the one described by
`generate_sound`. -/
theorem generate_sound_of (st : Engine) (w : Bool) (n : Nat)
    (hgen : (chess_generate_moves st w).map Prod.fst = some n) :
    ∃ st', chess_generate_moves st w = some (n, st') ∧ st'.g_move_count = n
      ∧ st'.g_board = st.g_board
      ∧ ∀ i, i < n →
          MoveSpec st.g_board w (st'.g_moves i).from_ (st'.g_moves i).to_
          ∧ (st'.g_moves i).captured = rd st.g_board (st'.g_moves i).to_ := by
  obtain ⟨st', hg, hb, _, hall⟩ := generate_sound st w
  rw [hg] at hgen
  have hc : st'.g_move_count = n := Option.some.inj hgen
  rw [hc] at hg hall
  exact ⟨st', hg, hc, hb, hall⟩

/-- C16.  Knight generation is complete: for every board and side for which
`chess_generate_moves` returns fewer than 256 moves, for every square `s`
holding a knight of that side, the squares `t` such that the move `(s, t)` is in
the buffer are exactly the squares of the board at file and rank distances
(1,2) or (2,1) from `s` that are Empty or hold a piece of the other colour. -/
theorem C16_knight_moves_complete (st : Engine) (w : Bool) (n : Nat)
    (hgen : (chess_generate_moves st w).map Prod.fst = some n) (hn : n < 256) :
    ∃ st', chess_generate_moves st w = some (n, st')
      ∧ ∀ s t, rd st.g_board s = piece_of w 78 →
          ((∃ i, i < n ∧ (st'.g_moves i).from_ = s ∧ (st'.g_moves i).to_ = t)
            ↔ (t < 64
                ∧ ((file_diff s t = 1 ∧ rank_diff s t = 2)
                    ∨ (file_diff s t = 2 ∧ rank_diff s t = 1))
                ∧ (rd st.g_board t = 46 ∨ opposing w (rd st.g_board t) = true))) := by
  obtain ⟨st', hg, _, _, hall⟩ := generate_sound_of st w n hgen
  refine ⟨st', hg, ?_⟩
  intro s t hk
  have hs : s < 64 := lt_of_rd_piece st.g_board w s 78 (by decide) hk
  constructor
  · rintro ⟨i, hi, hfrom, hto⟩
    obtain ⟨⟨_, ht, _, _, _, hfree, hshape⟩, _⟩ := hall i hi
    rw [hfrom, hto] at hshape
    rw [hto] at hfree ht
    have hnorm : normalized w (rd st.g_board s) = 78 := by rw [hk, normalized_piece_of]
    rw [hnorm] at hshape
    rcases hshape with ⟨h, _⟩ | ⟨_, hsh⟩ | ⟨h, _⟩ | ⟨h, _⟩ | ⟨h, _⟩
    · exact absurd h (by decide)
    · exact ⟨ht, hsh, hfree⟩
    · exact absurd h (by decide)
    · exact absurd h (by decide)
    · exact absurd h (by decide)
  · rintro ⟨ht, hsh, hfree⟩
    exact generate_complete st w n st' hg hn s t _ hs
      (square_targets_knight st.g_board w s hk)
      (knight_targets_complete st.g_board s w t hs ht hsh hfree)

/-- C16, witness: White to move on the start position, 12 moves, knights on
squares 57 and 62. -/
theorem C16_knight_moves_complete_witness :
    (chess_generate_moves (chess_reset blank_engine) true).map Prod.fst = some 12 ∧ 12 < 256
    ∧ ∃ st', chess_generate_moves (chess_reset blank_engine) true = some (12, st')
      ∧ ∀ s t, rd (chess_reset blank_engine).g_board s = piece_of true 78 →
          ((∃ i, i < 12 ∧ (st'.g_moves i).from_ = s ∧ (st'.g_moves i).to_ = t)
            ↔ (t < 64
                ∧ ((file_diff s t = 1 ∧ rank_diff s t = 2)
                    ∨ (file_diff s t = 2 ∧ rank_diff s t = 1))
                ∧ (rd (chess_reset blank_engine).g_board t = 46
                    ∨ opposing true (rd (chess_reset blank_engine).g_board t) = true))) :=
  ⟨by decide, by decide,
    C16_knight_moves_complete (chess_reset blank_engine) true 12 (by decide) (by decide)⟩

/-- Every free square reached along a ray is pushed by the slider's loop. -/
theorem ray_targets_complete (stop : Int → Nat → Bool) (b : Board) (w : Bool) (dir : Int)
    (h₁ : -64 ≤ dir) (h₂ : dir ≤ 64) (cur t : Nat) (hray : Ray stop b dir cur t)
    (hfree : rd b t = 46 ∨ opposing w (rd b t) = true) :
    ∀ fuel l, ray_targets stop b w dir fuel cur = some l → t ∈ l := by
  induction hray with
  | @one c t' hc ht he hs =>
    intro fuel l h
    cases fuel with
    | zero => exact absurd h (by simp [ray_targets])
    | succ n =>
      have hb : on_board (t' : Int) = true := (on_board_iff _).mpr ⟨by omega, by omega⟩
      unfold ray_targets at h
      simp only [to_int8_step c dir hc h₁ h₂, ← he, hb, hs, Bool.not_true,
        Bool.false_eq_true, if_false, Int.toNat_natCast, to_uint8_cast t' ht] at h
      by_cases hemp : rd b t' = 46
      · simp only [hemp, beq_self_eq_true, if_true] at h
        obtain ⟨l', _, hcons⟩ := Option.map_eq_some'.mp h
        rw [← hcons]
        exact List.mem_cons_self _ _
      · have hopp : opposing w (rd b t') = true := hfree.resolve_left hemp
        have hemp' : (rd b t' == 46) = false := by simpa using hemp
        simp only [hemp', Bool.false_eq_true, if_false, hopp, if_true] at h
        cases Option.some.inj h
        exact List.mem_singleton.mpr rfl
  | @more c m t' hc hm he hs hemp _ ih =>
    intro fuel l h
    cases fuel with
    | zero => exact absurd h (by simp [ray_targets])
    | succ n =>
      have hb : on_board (m : Int) = true := (on_board_iff _).mpr ⟨by omega, by omega⟩
      unfold ray_targets at h
      simp only [to_int8_step c dir hc h₁ h₂, ← he, hb, hs, Bool.not_true,
        Bool.false_eq_true, if_false, Int.toNat_natCast, to_uint8_cast m hm, hemp,
        beq_self_eq_true, if_true] at h
      obtain ⟨l', hl', hcons⟩ := Option.map_eq_some'.mp h
      rw [← hcons]
      exact List.mem_cons_of_mem _ (ih hfree n l' hl')

theorem rays_targets_mem_of (ray : Int → Option (List Nat)) (dirs : List Int) (d : Int)
    (hd : d ∈ dirs) :
    ∀ l, rays_targets ray dirs = some l → ∃ l', ray d = some l' ∧ ∀ t ∈ l', t ∈ l := by
  induction dirs with
  | nil => exact absurd hd (List.not_mem_nil d)
  | cons x rest ih =>
    intro l h
    unfold rays_targets at h
    cases hx : ray x with
    | none => simp [hx] at h
    | some l₁ =>
      cases hr : rays_targets ray rest with
      | none => simp [hx, hr] at h
      | some l₂ =>
        simp only [hx, hr] at h
        cases Option.some.inj h
        rcases List.mem_cons.mp hd with rfl | hd'
        · exact ⟨l₁, hx, fun t ht => List.mem_append_left _ ht⟩
        · obtain ⟨l', hl', hsub⟩ := ih hd' l₂ hr
          exact ⟨l', hl', fun t ht => List.mem_append_right _ (hsub t ht)⟩

/-- A square `n ≥ 1` unit steps away, with every square on the way empty, is
reached along the ray, provided the edge test lets every unit step through. -/
theorem ray_of_geometry (stop : Int → Nat → Bool) (b : Board) (dir df dr : Int)
    (hdf : df = -1 ∨ df = 0 ∨ df = 1) (hdr : dr = -1 ∨ dr = 0 ∨ dr = 1)
    (hconv : ∀ cur mid : Nat, cur < 64 → mid < 64 →
      (file mid : Int) = file cur + df → (rank mid : Int) = rank cur + dr →
      (mid : Int) = cur + dir ∧ stop (mid : Int) cur = false)
    (n : Nat) :
    ∀ cur t : Nat, cur < 64 → t < 64 → 1 ≤ n →
      (file t : Int) = file cur + n * df → (rank t : Int) = rank cur + n * dr →
      (∀ k : Nat, 1 ≤ k → k < n → ∀ x : Nat,
        (file x : Int) = file cur + k * df → (rank x : Int) = rank cur + k * dr →
        rd b x = 46) →
      Ray stop b dir cur t := by
  induction n with
  | zero =>
    intro cur t _ _ h
    omega
  | succ n ih =>
    intro cur t hc ht _ hf hr hbetween
    by_cases hn : n = 0
    · subst hn
      obtain ⟨he, hs⟩ := hconv cur t hc ht (by simpa using hf) (by simpa using hr)
      exact Ray.one hc ht he hs
    · have hfc : file cur < 8 := Nat.mod_lt _ (by decide)
      have hft : file t < 8 := Nat.mod_lt _ (by decide)
      have hrc : rank cur < 8 := Nat.div_lt_of_lt_mul hc
      have hrt : rank t < 8 := Nat.div_lt_of_lt_mul ht
      push_cast at hf hr
      obtain ⟨m, hm⟩ : ∃ m : Nat, (m : Int) = 8 * (rank cur + dr) + (file cur + df) := by
        refine ⟨(8 * ((rank cur : Int) + dr) + (file cur + df)).toNat, ?_⟩
        apply Int.toNat_of_nonneg
        rcases hdf with rfl | rfl | rfl <;> rcases hdr with rfl | rfl | rfl <;> omega
      have hmf : (file m : Int) = file cur + df := by
        show ((m % 8 : Nat) : Int) = _
        rcases hdf with rfl | rfl | rfl <;> rcases hdr with rfl | rfl | rfl <;> omega
      have hmr : (rank m : Int) = rank cur + dr := by
        show ((m / 8 : Nat) : Int) = _
        rcases hdf with rfl | rfl | rfl <;> rcases hdr with rfl | rfl | rfl <;> omega
      have hm64 : m < 64 := by
        rcases hdf with rfl | rfl | rfl <;> rcases hdr with rfl | rfl | rfl <;> omega
      obtain ⟨he, hs⟩ := hconv cur m hc hm64 hmf hmr
      have hemp : rd b m = 46 :=
        hbetween 1 (Nat.le_refl 1) (by omega) m (by simpa using hmf) (by simpa using hmr)
      refine Ray.more hc hm64 he hs hemp (ih m t hm64 ht (by omega) ?_ ?_ ?_)
      · rw [hf, hmf]; ring
      · rw [hr, hmr]; ring
      · intro k hk1 hk2 x hxf hxr
        apply hbetween (k + 1) (by omega) (by omega) x
        · rw [hxf, hmf]; push_cast; ring
        · rw [hxr, hmr]; push_cast; ring

theorem rook_conv_up (cur mid : Nat) (_ : cur < 64) (_ : mid < 64)
    (hf : (file mid : Int) = file cur + 0) (hr : (rank mid : Int) = rank cur + (-1)) :
    (mid : Int) = cur + (-8) ∧ rook_stop (-8) (mid : Int) cur = false := by
  refine ⟨?_, rfl⟩
  unfold file at hf
  unfold rank at hr
  omega

theorem rook_conv_down (cur mid : Nat) (_ : cur < 64) (_ : mid < 64)
    (hf : (file mid : Int) = file cur + 0) (hr : (rank mid : Int) = rank cur + 1) :
    (mid : Int) = cur + 8 ∧ rook_stop 8 (mid : Int) cur = false := by
  refine ⟨?_, rfl⟩
  unfold file at hf
  unfold rank at hr
  omega

theorem rook_conv_left (cur mid : Nat) (_ : cur < 64) (_ : mid < 64)
    (hf : (file mid : Int) = file cur + (-1)) (hr : (rank mid : Int) = rank cur + 0) :
    (mid : Int) = cur + (-1) ∧ rook_stop (-1) (mid : Int) cur = false := by
  have hr' : rank mid = rank cur := by omega
  refine ⟨?_, by simp [rook_stop, tdiv_cast, hr']⟩
  unfold file at hf
  unfold rank at hr
  omega

theorem rook_conv_right (cur mid : Nat) (_ : cur < 64) (_ : mid < 64)
    (hf : (file mid : Int) = file cur + 1) (hr : (rank mid : Int) = rank cur + 0) :
    (mid : Int) = cur + 1 ∧ rook_stop 1 (mid : Int) cur = false := by
  have hr' : rank mid = rank cur := by omega
  refine ⟨?_, by simp [rook_stop, tdiv_cast, hr']⟩
  unfold file at hf
  unfold rank at hr
  omega

theorem bishop_stop_false (cur mid : Nat)
    (h : ((file mid : Int) - file cur).natAbs = 1) : bishop_stop (mid : Int) cur = false := by
  simp [bishop_stop, tmod_cast, h]

theorem bishop_conv_nw (cur mid : Nat) (_ : cur < 64) (_ : mid < 64)
    (hf : (file mid : Int) = file cur + (-1)) (hr : (rank mid : Int) = rank cur + (-1)) :
    (mid : Int) = cur + (-9) ∧ bishop_stop (mid : Int) cur = false := by
  refine ⟨?_, bishop_stop_false cur mid (by omega)⟩
  unfold file at hf
  unfold rank at hr
  omega

theorem bishop_conv_ne (cur mid : Nat) (_ : cur < 64) (_ : mid < 64)
    (hf : (file mid : Int) = file cur + 1) (hr : (rank mid : Int) = rank cur + (-1)) :
    (mid : Int) = cur + (-7) ∧ bishop_stop (mid : Int) cur = false := by
  refine ⟨?_, bishop_stop_false cur mid (by omega)⟩
  unfold file at hf
  unfold rank at hr
  omega

theorem bishop_conv_sw (cur mid : Nat) (_ : cur < 64) (_ : mid < 64)
    (hf : (file mid : Int) = file cur + (-1)) (hr : (rank mid : Int) = rank cur + 1) :
    (mid : Int) = cur + 7 ∧ bishop_stop (mid : Int) cur = false := by
  refine ⟨?_, bishop_stop_false cur mid (by omega)⟩
  unfold file at hf
  unfold rank at hr
  omega

theorem bishop_conv_se (cur mid : Nat) (_ : cur < 64) (_ : mid < 64)
    (hf : (file mid : Int) = file cur + 1) (hr : (rank mid : Int) = rank cur + 1) :
    (mid : Int) = cur + 9 ∧ bishop_stop (mid : Int) cur = false := by
  refine ⟨?_, bishop_stop_false cur mid (by omega)⟩
  unfold file at hf
  unfold rank at hr
  omega

/-- A free square `n ≥ 1` unit steps away from a slider in one of its
directions, with every square on the way empty, is among the squares pushed. -/
theorem slider_ray_complete (stopf : Int → Int → Nat → Bool) (b : Board) (w : Bool)
    (s : Nat) (dirs : List Int) (l : List Nat)
    (hl : rays_targets (fun d => ray_targets (stopf d) b w d 64 s) dirs = some l)
    (d df dr : Int) (hd : d ∈ dirs) (h₁ : -64 ≤ d) (h₂ : d ≤ 64)
    (hdf : df = -1 ∨ df = 0 ∨ df = 1) (hdr : dr = -1 ∨ dr = 0 ∨ dr = 1)
    (hconv : ∀ cur mid : Nat, cur < 64 → mid < 64 →
      (file mid : Int) = file cur + df → (rank mid : Int) = rank cur + dr →
      (mid : Int) = cur + d ∧ stopf d (mid : Int) cur = false)
    (t : Nat) (hs : s < 64) (ht : t < 64) (n : Nat) (hn : 1 ≤ n)
    (hf : (file t : Int) = file s + n * df) (hr : (rank t : Int) = rank s + n * dr)
    (hbetween : ∀ k : Nat, 1 ≤ k → k < n → ∀ x : Nat,
        (file x : Int) = file s + k * df → (rank x : Int) = rank s + k * dr → rd b x = 46)
    (hfree : rd b t = 46 ∨ opposing w (rd b t) = true) : t ∈ l := by
  have hray : Ray (stopf d) b d s t :=
    ray_of_geometry (stopf d) b d df dr hdf hdr hconv n s t hs ht hn hf hr hbetween
  obtain ⟨l', hl', hsub⟩ := rays_targets_mem_of _ dirs d hd l hl
  exact hsub t (ray_targets_complete (stopf d) b w d h₁ h₂ s t hray hfree 64 l' hl')

/-- Every free square on the rank or file of a rook, with only empty squares in
between, is pushed. -/
theorem rook_targets_complete (b : Board) (s : Nat) (w : Bool) (t : Nat)
    (hs : s < 64) (ht : t < 64) (hne : t ≠ s)
    (hline : rank t = rank s ∨ file t = file s)
    (hbetween : ∀ x, between_on_line s x t → rd b x = 46)
    (hfree : rd b t = 46 ∨ opposing w (rd b t) = true) :
    ∃ l, rook_targets b s w = some l ∧ t ∈ l := by
  obtain ⟨l, hl⟩ := rook_targets_some b s w hs
  refine ⟨l, hl, ?_⟩
  have hst : file t ≠ file s ∨ rank t ≠ rank s := by
    by_contra h
    have h' : file t = file s ∧ rank t = rank s := by omega
    exact hne (square_eq_of_file_rank t s (by omega) (by omega))
  have hcases : (rank t = rank s ∧ file s < file t) ∨ (rank t = rank s ∧ file t < file s)
      ∨ (file t = file s ∧ rank s < rank t) ∨ (file t = file s ∧ rank t < rank s) := by
    omega
  rcases hcases with ⟨hr, hlt⟩ | ⟨hr, hlt⟩ | ⟨hf, hlt⟩ | ⟨hf, hlt⟩
  · refine slider_ray_complete rook_stop b w s rook_directions l hl 1 1 0
      (by simp [rook_directions]) (by omega) (by omega) (by simp) (by simp) rook_conv_right
      t hs ht (file t - file s) (by omega) (by omega) (by omega) ?_ hfree
    intro k hk1 hk2 x hxf hxr
    apply hbetween
    unfold between_on_line strictly_between
    omega
  · refine slider_ray_complete rook_stop b w s rook_directions l hl (-1) (-1) 0
      (by simp [rook_directions]) (by omega) (by omega) (by simp) (by simp) rook_conv_left
      t hs ht (file s - file t) (by omega) (by omega) (by omega) ?_ hfree
    intro k hk1 hk2 x hxf hxr
    apply hbetween
    unfold between_on_line strictly_between
    omega
  · refine slider_ray_complete rook_stop b w s rook_directions l hl 8 0 1
      (by simp [rook_directions]) (by omega) (by omega) (by simp) (by simp) rook_conv_down
      t hs ht (rank t - rank s) (by omega) (by omega) (by omega) ?_ hfree
    intro k hk1 hk2 x hxf hxr
    apply hbetween
    unfold between_on_line strictly_between
    omega
  · refine slider_ray_complete rook_stop b w s rook_directions l hl (-8) 0 (-1)
      (by simp [rook_directions]) (by omega) (by omega) (by simp) (by simp) rook_conv_up
      t hs ht (rank s - rank t) (by omega) (by omega) (by omega) ?_ hfree
    intro k hk1 hk2 x hxf hxr
    apply hbetween
    unfold between_on_line strictly_between
    omega

/-- Every free square on a diagonal of a bishop, with only empty squares in
between, is pushed. -/
theorem bishop_targets_complete (b : Board) (s : Nat) (w : Bool) (t : Nat)
    (hs : s < 64) (ht : t < 64) (hdiag : file_diff s t = rank_diff s t)
    (hpos : 0 < file_diff s t)
    (hbetween : ∀ x, between_on_diagonal s x t → rd b x = 46)
    (hfree : rd b t = 46 ∨ opposing w (rd b t) = true) :
    ∃ l, bishop_targets b s w = some l ∧ t ∈ l := by
  obtain ⟨l, hl⟩ := bishop_targets_some b s w hs
  refine ⟨l, hl, ?_⟩
  unfold file_diff rank_diff at hdiag
  unfold file_diff at hpos
  have hcases : (file t < file s ∧ rank t < rank s) ∨ (file s < file t ∧ rank t < rank s)
      ∨ (file t < file s ∧ rank s < rank t) ∨ (file s < file t ∧ rank s < rank t) := by
    omega
  rcases hcases with ⟨hf, hr⟩ | ⟨hf, hr⟩ | ⟨hf, hr⟩ | ⟨hf, hr⟩
  · refine slider_ray_complete (fun _ => bishop_stop) b w s bishop_directions l hl (-9) (-1)
      (-1) (by simp [bishop_directions]) (by omega) (by omega) (by simp) (by simp)
      bishop_conv_nw t hs ht (file s - file t) (by omega) (by omega) (by omega) ?_ hfree
    intro k hk1 hk2 x hxf hxr
    apply hbetween
    unfold between_on_diagonal strictly_between file_diff rank_diff
    omega
  · refine slider_ray_complete (fun _ => bishop_stop) b w s bishop_directions l hl (-7) 1
      (-1) (by simp [bishop_directions]) (by omega) (by omega) (by simp) (by simp)
      bishop_conv_ne t hs ht (file t - file s) (by omega) (by omega) (by omega) ?_ hfree
    intro k hk1 hk2 x hxf hxr
    apply hbetween
    unfold between_on_diagonal strictly_between file_diff rank_diff
    omega
  · refine slider_ray_complete (fun _ => bishop_stop) b w s bishop_directions l hl 7 (-1)
      1 (by simp [bishop_directions]) (by omega) (by omega) (by simp) (by simp)
      bishop_conv_sw t hs ht (file s - file t) (by omega) (by omega) (by omega) ?_ hfree
    intro k hk1 hk2 x hxf hxr
    apply hbetween
    unfold between_on_diagonal strictly_between file_diff rank_diff
    omega
  · refine slider_ray_complete (fun _ => bishop_stop) b w s bishop_directions l hl 9 1
      1 (by simp [bishop_directions]) (by omega) (by omega) (by simp) (by simp)
      bishop_conv_se t hs ht (file t - file s) (by omega) (by omega) (by omega) ?_ hfree
    intro k hk1 hk2 x hxf hxr
    apply hbetween
    unfold between_on_diagonal strictly_between file_diff rank_diff
    omega

/-- C17.  Slider generation is complete: for every board and side for which
`chess_generate_moves` returns fewer than 256 moves, for every rook of that side
on `s` and every square `t != s` on the same rank or file with all squares
strictly between Empty and `board[t]` Empty or opposing, the move `(s, t)` is in
the buffer; and likewise for every bishop of that side on `s` and every `t` on a
common diagonal (equal, non-zero file and rank distances) with all squares
strictly between Empty and `board[t]` Empty or opposing. -/
theorem C17_slider_moves_complete (st : Engine) (w : Bool) (n : Nat)
    (hgen : (chess_generate_moves st w).map Prod.fst = some n) (hn : n < 256) :
    ∃ st', chess_generate_moves st w = some (n, st')
      ∧ (∀ s t, rd st.g_board s = piece_of w 82 → t < 64 → t ≠ s →
          (rank t = rank s ∨ file t = file s) →
          (∀ x, between_on_line s x t → rd st.g_board x = 46) →
          (rd st.g_board t = 46 ∨ opposing w (rd st.g_board t) = true) →
          ∃ i, i < n ∧ (st'.g_moves i).from_ = s ∧ (st'.g_moves i).to_ = t)
      ∧ (∀ s t, rd st.g_board s = piece_of w 66 → t < 64 →
          file_diff s t = rank_diff s t → 0 < file_diff s t →
          (∀ x, between_on_diagonal s x t → rd st.g_board x = 46) →
          (rd st.g_board t = 46 ∨ opposing w (rd st.g_board t) = true) →
          ∃ i, i < n ∧ (st'.g_moves i).from_ = s ∧ (st'.g_moves i).to_ = t) := by
  obtain ⟨st', hg, _, _, _⟩ := generate_sound_of st w n hgen
  refine ⟨st', hg, ?_, ?_⟩
  · intro s t hp ht hne hline hbetween hfree
    have hs : s < 64 := lt_of_rd_piece st.g_board w s 82 (by decide) hp
    obtain ⟨l, hl, hmem⟩ :=
      rook_targets_complete st.g_board s w t hs ht hne hline hbetween hfree
    exact generate_complete st w n st' hg hn s t l hs
      ((square_targets_rook st.g_board w s hp).trans hl) hmem
  · intro s t hp ht hdiag hpos hbetween hfree
    have hs : s < 64 := lt_of_rd_piece st.g_board w s 66 (by decide) hp
    obtain ⟨l, hl, hmem⟩ :=
      bishop_targets_complete st.g_board s w t hs ht hdiag hpos hbetween hfree
    exact generate_complete st w n st' hg hn s t l hs
      ((square_targets_bishop st.g_board w s hp).trans hl) hmem

/-- C17, witness: White to move on a board with a white rook on 27, a white
bishop on 36, a white pawn on 29 and a black pawn on 11; 17 moves. -/
theorem C17_slider_moves_complete_witness :
    (chess_generate_moves sliders_engine true).map Prod.fst = some 17 ∧ 17 < 256
    ∧ ∃ st', chess_generate_moves sliders_engine true = some (17, st')
      ∧ (∀ s t, rd sliders_engine.g_board s = piece_of true 82 → t < 64 → t ≠ s →
          (rank t = rank s ∨ file t = file s) →
          (∀ x, between_on_line s x t → rd sliders_engine.g_board x = 46) →
          (rd sliders_engine.g_board t = 46
            ∨ opposing true (rd sliders_engine.g_board t) = true) →
          ∃ i, i < 17 ∧ (st'.g_moves i).from_ = s ∧ (st'.g_moves i).to_ = t)
      ∧ (∀ s t, rd sliders_engine.g_board s = piece_of true 66 → t < 64 →
          file_diff s t = rank_diff s t → 0 < file_diff s t →
          (∀ x, between_on_diagonal s x t → rd sliders_engine.g_board x = 46) →
          (rd sliders_engine.g_board t = 46
            ∨ opposing true (rd sliders_engine.g_board t) = true) →
          ∃ i, i < 17 ∧ (st'.g_moves i).from_ = s ∧ (st'.g_moves i).to_ = t) :=
  ⟨by decide, by decide,
    C17_slider_moves_complete sliders_engine true 17 (by decide) (by decide)⟩

/-! ## Absence of duplicates -/

theorem nodup_three (c₁ c₂ c₃ : Prop) [Decidable c₁] [Decidable c₂] [Decidable c₃]
    (x y z : Nat) (hxy : c₁ → c₂ → x ≠ y) (hxz : c₁ → c₃ → x ≠ z) (hyz : c₂ → c₃ → y ≠ z) :
    ((if c₁ then [x] else []) ++ (if c₂ then [y] else [])
      ++ (if c₃ then [z] else [])).Pairwise (fun a b => a ≠ b) := by
  by_cases h₁ : c₁ <;> by_cases h₂ : c₂ <;> by_cases h₃ : c₃ <;>
    simp only [h₁, h₂, h₃, if_true, if_false, List.nil_append, List.append_nil,
      List.singleton_append, List.cons_append, List.pairwise_cons, List.mem_cons,
      List.mem_singleton, List.not_mem_nil, List.Pairwise.nil, forall_eq_or_imp, forall_eq,
      and_true, false_imp_iff, implies_true, or_false, IsEmpty.forall_iff]
  · exact ⟨⟨hxy h₁ h₂, hxz h₁ h₃⟩, hyz h₂ h₃⟩
  · exact hxy h₁ h₂
  · exact hxz h₁ h₃
  · exact hyz h₂ h₃

/-- The squares pushed for a pawn are pairwise distinct. -/
theorem pawn_targets_nodup (b : Board) (idx : Nat) (w : Bool) (h : idx < 64) :
    (pawn_targets b idx w).Pairwise (fun a c => a ≠ c) := by
  have hdir : -8 ≤ (if w = true then (-8 : Int) else 8)
      ∧ (if w = true then (-8 : Int) else 8) ≤ 8 := by
    cases w <;> simp
  unfold pawn_targets
  simp only [to_int8_step idx (if w = true then (-8 : Int) else 8) h (by omega) (by omega)]
  generalize (if w = true then (-8 : Int) else 8) = dir at hdir ⊢
  have e1 : to_int8 ((idx : Int) + dir - 1) = idx + dir - 1 :=
    to_int8_of_small _ (by omega) (by omega)
  have e2 : to_int8 ((idx : Int) + dir + 1) = idx + dir + 1 :=
    to_int8_of_small _ (by omega) (by omega)
  simp only [e1, e2]
  apply nodup_three
  · intro h₁ h₂
    simp only [Bool.and_eq_true] at h₁ h₂
    obtain ⟨t, _, hx, hu, _⟩ := on_board_nat _ h₁.1
    obtain ⟨t', _, hx', hu', _⟩ := on_board_nat _ h₂.1.1
    rw [hu, hu']
    omega
  · intro h₁ h₂
    simp only [Bool.and_eq_true] at h₁ h₂
    obtain ⟨t, _, hx, hu, _⟩ := on_board_nat _ h₁.1
    obtain ⟨t', _, hx', hu', _⟩ := on_board_nat _ h₂.1.1
    rw [hu, hu']
    omega
  · intro h₁ h₂
    simp only [Bool.and_eq_true] at h₁ h₂
    obtain ⟨t, _, hx, hu, _⟩ := on_board_nat _ h₁.1.1
    obtain ⟨t', _, hx', hu', _⟩ := on_board_nat _ h₂.1.1
    rw [hu, hu']
    omega

theorem earlier_in_irrefl (l : List Int) (hl : l.Nodup) (x : Int) : ¬ earlier_in l x x := by
  rintro ⟨a, c, hac, ha, hc⟩
  have hlen : a < l.length := (List.getElem?_eq_some.mp ha).1
  have := List.getElem?_inj hlen hl (ha.trans hc.symm)
  omega

/-- The squares pushed for a knight are pairwise distinct. -/
theorem knight_targets_nodup (b : Board) (s : Nat) (w : Bool) (h : s < 64) :
    (knight_targets b s w).Pairwise (fun a c => a ≠ c) := by
  refine (knight_targets_order b s w h).imp ?_
  intro t t' he heq
  subst heq
  exact earlier_in_irrefl knight_jumps (by decide) _ he

/-- The squares pushed for a king are pairwise distinct. -/
theorem king_targets_nodup (b : Board) (s : Nat) (w : Bool) (h : s < 64) :
    (king_targets b s w).Pairwise (fun a c => a ≠ c) := by
  refine (king_targets_order b s w h).imp ?_
  intro t t' he heq
  subst heq
  exact earlier_in_irrefl king_deltas (by decide) _ he

/-- The squares pushed along one ray move strictly away from the start. -/
theorem ray_targets_monotone (stop : Int → Nat → Bool) (b : Board) (w : Bool) (dir : Int)
    (h₁ : -64 ≤ dir) (h₂ : dir ≤ 64) (fuel : Nat) :
    ∀ (current : Nat) (l : List Nat), current < 64 →
      ray_targets stop b w dir fuel current = some l →
      (∀ t ∈ l, (0 < dir → current < t) ∧ (dir < 0 → t < current))
      ∧ l.Pairwise (fun t t' => (0 < dir → t < t') ∧ (dir < 0 → t' < t)) := by
  induction fuel with
  | zero =>
    intro current l _ h
    exact absurd h (by simp [ray_targets])
  | succ n ih =>
    intro current l hc h
    have hnil : (∀ t ∈ ([] : List Nat), (0 < dir → current < t) ∧ (dir < 0 → t < current))
        ∧ ([] : List Nat).Pairwise (fun t t' => (0 < dir → t < t') ∧ (dir < 0 → t' < t)) :=
      ⟨fun t ht => absurd ht (List.not_mem_nil t), List.Pairwise.nil⟩
    unfold ray_targets at h
    simp only [to_int8_step current dir hc h₁ h₂] at h
    by_cases hb : on_board ((current : Int) + dir) = true
    · obtain ⟨c, hc64, hx, hu, hn⟩ := on_board_nat _ hb
      rw [hx] at h hb hu hn
      simp only [hb, Bool.not_true, Bool.false_eq_true, if_false, hu, hn] at h
      have hone : (∀ t ∈ [c], (0 < dir → current < t) ∧ (dir < 0 → t < current))
          ∧ [c].Pairwise (fun t t' => (0 < dir → t < t') ∧ (dir < 0 → t' < t)) := by
        refine ⟨?_, List.pairwise_singleton _ _⟩
        intro t ht
        cases List.mem_singleton.mp ht
        constructor <;> intro _ <;> omega
      by_cases hs : stop (c : Int) current = true
      · simp only [hs, if_true] at h
        cases Option.some.inj h
        exact hnil
      · have hs' : stop (c : Int) current = false := by simpa using hs
        simp only [hs', Bool.false_eq_true, if_false] at h
        by_cases he : rd b c = 46
        · simp only [he, beq_self_eq_true, if_true] at h
          obtain ⟨l', hl', hcons⟩ := Option.map_eq_some'.mp h
          subst hcons
          obtain ⟨hall, hpw⟩ := ih c l' hc64 hl'
          refine ⟨?_, List.pairwise_cons.mpr ⟨hall, hpw⟩⟩
          intro t ht
          rcases List.mem_cons.mp ht with rfl | ht'
          · constructor <;> intro _ <;> omega
          · obtain ⟨g₁, g₂⟩ := hall t ht'
            constructor
            · intro hd
              have := g₁ hd
              omega
            · intro hd
              have := g₂ hd
              omega
        · have he' : (rd b c == 46) = false := by simpa using he
          simp only [he', Bool.false_eq_true, if_false] at h
          by_cases ho : opposing w (rd b c) = true
          · simp only [ho, if_true] at h
            cases Option.some.inj h
            exact hone
          · simp only [ho, if_false] at h
            cases Option.some.inj h
            exact hnil
    · have hb' : on_board ((current : Int) + dir) = false := by simpa using hb
      simp only [hb', Bool.not_false, if_true] at h
      cases Option.some.inj h
      exact hnil

/-- Rays run one after the other keep a relation that holds inside every ray and
between the squares of an earlier and a later ray. -/
theorem rays_targets_pairwise (R : Nat → Nat → Prop) (ray : Int → Option (List Nat))
    (dirs : List Int) :
    (∀ d ∈ dirs, ∀ l, ray d = some l → l.Pairwise R) →
    dirs.Pairwise (fun d d' => ∀ l l', ray d = some l → ray d' = some l' →
      ∀ a ∈ l, ∀ c ∈ l', R a c) →
    ∀ l, rays_targets ray dirs = some l → l.Pairwise R := by
  induction dirs with
  | nil =>
    intro _ _ l h
    cases Option.some.inj h
    exact List.Pairwise.nil
  | cons d rest ih =>
    intro hin hcross l h
    have hc := List.pairwise_cons.mp hcross
    unfold rays_targets at h
    cases hd : ray d with
    | none => simp [hd] at h
    | some l₁ =>
      cases hr : rays_targets ray rest with
      | none => simp [hd, hr] at h
      | some l₂ =>
        simp only [hd, hr] at h
        cases Option.some.inj h
        refine List.pairwise_append.mpr ⟨hin d (List.mem_cons_self d rest) l₁ hd,
          ih (fun d' hd' => hin d' (List.mem_cons_of_mem d hd')) hc.2 l₂ hr, ?_⟩
        intro a ha c hcm
        obtain ⟨d', hd', l', hl', hc'⟩ := rays_targets_mem ray rest l₂ hr c hcm
        exact hc.1 d' hd' l₁ l' hd hl' a ha c hc'

/-- One ray pushes pairwise distinct squares. -/
theorem ray_targets_nodup (stop : Int → Nat → Bool) (b : Board) (w : Bool) (dir : Int)
    (h₀ : dir ≠ 0) (h₁ : -64 ≤ dir) (h₂ : dir ≤ 64) (s : Nat) (hs : s < 64) (l : List Nat)
    (hl : ray_targets stop b w dir 64 s = some l) : l.Pairwise (fun a c => a ≠ c) := by
  refine (ray_targets_monotone stop b w dir h₁ h₂ 64 s l hs hl).2.imp ?_
  intro a c h heq
  subst heq
  rcases Int.lt_or_gt_of_ne h₀ with hd | hd
  · exact Nat.lt_irrefl _ (h.2 hd)
  · exact Nat.lt_irrefl _ (h.1 hd)

/-- Rays in two directions with different unit steps push different squares. -/
theorem rays_disjoint (stop stop' : Int → Nat → Bool) (b : Board) (w : Bool)
    (d d' df dr df' dr' : Int) (hg : StepGeom stop d df dr) (hg' : StepGeom stop' d' df' dr')
    (h₁ : -64 ≤ d) (h₂ : d ≤ 64) (h₁' : -64 ≤ d') (h₂' : d' ≤ 64)
    (hu : ∀ n n' : Nat, 1 ≤ n → 1 ≤ n' →
      ¬ ((n : Int) * df = n' * df' ∧ (n : Int) * dr = n' * dr'))
    (s : Nat) (hs : s < 64) (l l' : List Nat)
    (hl : ray_targets stop b w d 64 s = some l)
    (hl' : ray_targets stop' b w d' 64 s = some l') :
    ∀ a ∈ l, ∀ c ∈ l', a ≠ c := by
  intro a ha c hc heq
  subst heq
  obtain ⟨n, hn, hf, hr, _⟩ := ray_geometry stop b d df dr hg s a
    (ray_targets_spec stop b w d h₁ h₂ 64 s l hs hl a ha).1
  obtain ⟨n', hn', hf', hr', _⟩ := ray_geometry stop' b d' df' dr' hg' s a
    (ray_targets_spec stop' b w d' h₁' h₂' 64 s l' hs hl' a hc).1
  exact hu n n' hn hn' ⟨by omega, by omega⟩

/-- The squares pushed for a rook are pairwise distinct. -/
theorem rook_targets_nodup (b : Board) (s : Nat) (w : Bool) (hs : s < 64) (l : List Nat)
    (hl : rook_targets b s w = some l) : l.Pairwise (fun a c => a ≠ c) := by
  refine rays_targets_pairwise _ _ rook_directions ?_ ?_ l hl
  · intro d hd l' hl'
    simp only [rook_directions, List.mem_cons, List.mem_singleton, List.not_mem_nil,
      or_false] at hd
    exact ray_targets_nodup _ b w d (by omega) (by omega) (by omega) s hs l' hl'
  · simp only [rook_directions, List.pairwise_cons, List.mem_cons, List.mem_singleton,
      List.not_mem_nil, forall_eq_or_imp, forall_eq, List.Pairwise.nil, and_true,
      false_imp_iff, implies_true, or_false, IsEmpty.forall_iff]
    refine ⟨⟨?_, ?_, ?_⟩, ⟨?_, ?_⟩, ?_⟩
    · intro l₁ l₂ e₁ e₂
      exact rays_disjoint _ _ b w _ _ _ _ _ _ rook_step_geom_up rook_step_geom_down
        (by omega) (by omega) (by omega) (by omega)
        (fun n n' _ _ h => by omega) s hs l₁ l₂ e₁ e₂
    · intro l₁ l₂ e₁ e₂
      exact rays_disjoint _ _ b w _ _ _ _ _ _ rook_step_geom_up rook_step_geom_left
        (by omega) (by omega) (by omega) (by omega)
        (fun n n' _ _ h => by omega) s hs l₁ l₂ e₁ e₂
    · intro l₁ l₂ e₁ e₂
      exact rays_disjoint _ _ b w _ _ _ _ _ _ rook_step_geom_up rook_step_geom_right
        (by omega) (by omega) (by omega) (by omega)
        (fun n n' _ _ h => by omega) s hs l₁ l₂ e₁ e₂
    · intro l₁ l₂ e₁ e₂
      exact rays_disjoint _ _ b w _ _ _ _ _ _ rook_step_geom_down rook_step_geom_left
        (by omega) (by omega) (by omega) (by omega)
        (fun n n' _ _ h => by omega) s hs l₁ l₂ e₁ e₂
    · intro l₁ l₂ e₁ e₂
      exact rays_disjoint _ _ b w _ _ _ _ _ _ rook_step_geom_down rook_step_geom_right
        (by omega) (by omega) (by omega) (by omega)
        (fun n n' _ _ h => by omega) s hs l₁ l₂ e₁ e₂
    · intro l₁ l₂ e₁ e₂
      exact rays_disjoint _ _ b w _ _ _ _ _ _ rook_step_geom_left rook_step_geom_right
        (by omega) (by omega) (by omega) (by omega)
        (fun n n' _ _ h => by omega) s hs l₁ l₂ e₁ e₂

/-- The squares pushed for a bishop are pairwise distinct. -/
theorem bishop_targets_nodup (b : Board) (s : Nat) (w : Bool) (hs : s < 64) (l : List Nat)
    (hl : bishop_targets b s w = some l) : l.Pairwise (fun a c => a ≠ c) := by
  refine rays_targets_pairwise _ _ bishop_directions ?_ ?_ l hl
  · intro d hd l' hl'
    simp only [bishop_directions, List.mem_cons, List.mem_singleton, List.not_mem_nil,
      or_false] at hd
    exact ray_targets_nodup _ b w d (by omega) (by omega) (by omega) s hs l' hl'
  · simp only [bishop_directions, List.pairwise_cons, List.mem_cons, List.mem_singleton,
      List.not_mem_nil, forall_eq_or_imp, forall_eq, List.Pairwise.nil, and_true,
      false_imp_iff, implies_true, or_false, IsEmpty.forall_iff]
    refine ⟨⟨?_, ?_, ?_⟩, ⟨?_, ?_⟩, ?_⟩
    · intro l₁ l₂ e₁ e₂
      exact rays_disjoint _ _ b w _ _ _ _ _ _ bishop_step_geom_nw bishop_step_geom_ne
        (by omega) (by omega) (by omega) (by omega)
        (fun n n' _ _ h => by omega) s hs l₁ l₂ e₁ e₂
    · intro l₁ l₂ e₁ e₂
      exact rays_disjoint _ _ b w _ _ _ _ _ _ bishop_step_geom_nw bishop_step_geom_sw
        (by omega) (by omega) (by omega) (by omega)
        (fun n n' _ _ h => by omega) s hs l₁ l₂ e₁ e₂
    · intro l₁ l₂ e₁ e₂
      exact rays_disjoint _ _ b w _ _ _ _ _ _ bishop_step_geom_nw bishop_step_geom_se
        (by omega) (by omega) (by omega) (by omega)
        (fun n n' _ _ h => by omega) s hs l₁ l₂ e₁ e₂
    · intro l₁ l₂ e₁ e₂
      exact rays_disjoint _ _ b w _ _ _ _ _ _ bishop_step_geom_ne bishop_step_geom_sw
        (by omega) (by omega) (by omega) (by omega)
        (fun n n' _ _ h => by omega) s hs l₁ l₂ e₁ e₂
    · intro l₁ l₂ e₁ e₂
      exact rays_disjoint _ _ b w _ _ _ _ _ _ bishop_step_geom_ne bishop_step_geom_se
        (by omega) (by omega) (by omega) (by omega)
        (fun n n' _ _ h => by omega) s hs l₁ l₂ e₁ e₂
    · intro l₁ l₂ e₁ e₂
      exact rays_disjoint _ _ b w _ _ _ _ _ _ bishop_step_geom_sw bishop_step_geom_se
        (by omega) (by omega) (by omega) (by omega)
        (fun n n' _ _ h => by omega) s hs l₁ l₂ e₁ e₂

/-- A square that does not hold a piece of the side to move pushes nothing. -/
theorem square_targets_of_not_own (b : Board) (w : Bool) (s : Nat)
    (h : own w (rd b s) = false) : square_targets b w s = some [] := by
  unfold square_targets
  simp only []
  by_cases h1 : (rd b s == 46) = true
  · rw [if_pos h1]
  · rw [if_neg h1]
    unfold own at h
    cases w
    · have h3 : (!false && !is_black_piece (rd b s)) = true := by simpa using h
      have h2 : ¬ ((false && !is_white_piece (rd b s)) = true) := by simp
      rw [if_neg h2, if_pos h3]
    · have h2 : (true && !is_white_piece (rd b s)) = true := by simpa using h
      rw [if_pos h2]

theorem own_letter_bounds (w : Bool) (p : Nat) (h : own w p = true) :
    65 ≤ normalized w p ∧ normalized w p ≤ 90 := by
  unfold own is_white_piece is_black_piece at h
  unfold normalized
  cases w <;> simp at h ⊢ <;> omega

/-- The squares pushed for one square of the scan are pairwise distinct. -/
theorem square_targets_nodup (b : Board) (w : Bool) (s : Nat) (hs : s < 64) (lt : List Nat)
    (hlt : square_targets b w s = some lt) : lt.Pairwise (fun a c => a ≠ c) := by
  by_cases hown : own w (rd b s) = true
  · obtain ⟨hlo, hhi⟩ := own_letter_bounds w _ hown
    have hp : rd b s = piece_of w (normalized w (rd b s)) := (piece_of_normalized w _ hown).symm
    rw [square_targets_of_piece b w s _ hlo hhi hp] at hlt
    by_cases hP : (normalized w (rd b s) == 80) = true
    · rw [if_pos hP] at hlt
      cases Option.some.inj hlt
      exact pawn_targets_nodup b s w hs
    rw [if_neg hP] at hlt
    by_cases hN : (normalized w (rd b s) == 78) = true
    · rw [if_pos hN] at hlt
      cases Option.some.inj hlt
      exact knight_targets_nodup b s w hs
    rw [if_neg hN] at hlt
    by_cases hB : (normalized w (rd b s) == 66) = true
    · rw [if_pos hB] at hlt
      exact bishop_targets_nodup b s w hs lt hlt
    rw [if_neg hB] at hlt
    by_cases hR : (normalized w (rd b s) == 82) = true
    · rw [if_pos hR] at hlt
      exact rook_targets_nodup b s w hs lt hlt
    rw [if_neg hR] at hlt
    by_cases hK : (normalized w (rd b s) == 75) = true
    · rw [if_pos hK] at hlt
      cases Option.some.inj hlt
      exact king_targets_nodup b s w hs
    rw [if_neg hK] at hlt
    cases Option.some.inj hlt
    exact List.Pairwise.nil
  · have hown' : own w (rd b s) = false := by simpa using hown
    rw [square_targets_of_not_own b w s hown'] at hlt
    cases Option.some.inj hlt
    exact List.Pairwise.nil

/-- C20.  For every board and side, the buffer produced by `chess_generate_moves`
contains no duplicate move: for all indices `i != j` below the returned count,
`(buffer[i].from, buffer[i].to) != (buffer[j].from, buffer[j].to)`.  Hence every
generated move is selected by exactly one index below the count. -/
theorem C20_no_duplicate_moves (st : Engine) (w : Bool) :
    ∃ n st', chess_generate_moves st w = some (n, st')
      ∧ (∀ i j, i < n → j < n → i ≠ j →
          ((st'.g_moves i).from_, (st'.g_moves i).to_)
            ≠ ((st'.g_moves j).from_, (st'.g_moves j).to_))
      ∧ (∀ i, i < n →
          ((Finset.range n).filter (fun j =>
            ((st'.g_moves j).from_, (st'.g_moves j).to_)
              = ((st'.g_moves i).from_, (st'.g_moves i).to_))).card = 1) := by
  obtain ⟨st', hgen, hpair⟩ := generate_pairwise (fun p q => p ≠ q) st w (by
    intro l hl
    refine scan_moves_pairwise _ st.g_board w ?_ _ l (List.pairwise_lt_range 64) ?_ hl
    · intro s s' t t' hss heq
      exact Nat.ne_of_lt hss (congrArg Prod.fst heq)
    · intro s hs lt hlt
      refine (square_targets_nodup st.g_board w s (List.mem_range.mp hs) lt hlt).imp ?_
      intro t t' hne heq
      exact hne (congrArg Prod.snd heq))
  have hne : ∀ i j, i < st'.g_move_count → j < st'.g_move_count → i ≠ j →
      ((st'.g_moves i).from_, (st'.g_moves i).to_)
        ≠ ((st'.g_moves j).from_, (st'.g_moves j).to_) := by
    intro i j hi hj hij
    rcases Nat.lt_or_gt_of_ne hij with h | h
    · exact hpair i j h hj
    · exact fun heq => hpair j i h hi heq.symm
  refine ⟨st'.g_move_count, st', hgen, hne, ?_⟩
  intro i hi
  apply Finset.card_eq_one.mpr
  refine ⟨i, ?_⟩
  ext j
  simp only [Finset.mem_filter, Finset.mem_range, Finset.mem_singleton]
  constructor
  · rintro ⟨hj, heq⟩
    by_contra hji
    exact hne j i hj hi hji heq
  · rintro rfl
    exact ⟨hi, rfl⟩

end ChessC
